import Mathlib

/-!
# Verification of the ODE solver core (Dif-elmos-GhaemiV2)

A shallow embedding of the symbolic-expression engine of the repository:
the expression AST, simplifier, renderer and evaluator (`scripts/parser.js`),
the rule-based integrator (`scripts/integrator.js`), the ODE classifier and
solver (`scripts/solver.js`), and the RK4 trajectory sampler (the chart
module).

Modelling conventions:

* JavaScript numbers (IEEE-754 float64) are idealised as exact rationals
  extended with the three special values `Infinity`, `-Infinity`, `NaN`
  (type `F` below).  Rounding and overflow of float64 are not modelled;
  the special-value propagation rules of JS arithmetic are.
* `Math.pow` and the `Math.sin`/`Math.cos`/... primitives have no exact
  rational counterpart, so they are abstracted as fields of a `Prims`
  structure together with the (float-exact) identities the proofs need:
  `pow(x, 0) = 1`, `pow(x, 1) = x`, `pow(x, NaN) = NaN`,
  `pow(NaN, y) = NaN` for `y ≠ 0`, and `fn(NaN) = NaN` for every named
  function.  Every theorem below is proved for all interpretations of
  these primitives; `ratJsPrims` is one concrete computable instance used
  for concrete evaluation.
* The AST is the closed tagged union of the source (`number`, `variable`,
  `unary` negation, `function`, `binary`); operator, function and variable
  tags are closed enumerations, exactly the sets accepted by the tokenizer.
* Persian user-facing message strings are replaced by short English
  placeholders; no claim depends on message contents beyond presence.
-/

/-! ### Computable rational arithmetic

The `Rat` arithmetic of the ambient library is deliberately opaque to
definitional unfolding, so the embedding uses its own `mkRat`-based
operations — provably equal to the library ones (`qadd_eq` etc.) — to keep
every definition evaluable on concrete inputs. -/

/-- Rational addition via `mkRat`. -/
def qadd (a b : ℚ) : ℚ := mkRat (a.num * b.den + b.num * a.den) (a.den * b.den)

/-- Rational negation via `mkRat`. -/
def qneg (a : ℚ) : ℚ := mkRat (-a.num) a.den

/-- Rational subtraction via `mkRat`. -/
def qsub (a b : ℚ) : ℚ := qadd a (qneg b)

/-- Rational multiplication via `mkRat`. -/
def qmul (a b : ℚ) : ℚ := mkRat (a.num * b.num) (a.den * b.den)

/-- Rational division via `mkRat` (`qdiv a 0 = 0`, as in the library). -/
def qdiv (a b : ℚ) : ℚ :=
  if 0 ≤ b.num then mkRat (a.num * b.den) (a.den * b.num.natAbs)
  else mkRat (-(a.num * b.den)) (a.den * b.num.natAbs)

/-- Rational absolute value via `mkRat`. -/
def qabs (a : ℚ) : ℚ := mkRat a.num.natAbs a.den

lemma den_cast_ne_zero (a : ℚ) : (a.den : ℚ) ≠ 0 := by
  exact_mod_cast a.den_nz

lemma mul_den_eq_num (a : ℚ) : a * (a.den : ℚ) = (a.num : ℚ) := by
  nth_rewrite 1 [← Rat.num_div_den a]
  rw [div_mul_cancel₀ _ (den_cast_ne_zero a)]

lemma qadd_eq (a b : ℚ) : qadd a b = a + b := by
  unfold qadd
  rw [Rat.mkRat_eq_div]
  push_cast
  rw [div_eq_iff (by positivity : ((a.den : ℚ) * b.den) ≠ 0)]
  rw [← mul_den_eq_num a, ← mul_den_eq_num b]
  ring

lemma qneg_eq (a : ℚ) : qneg a = -a := by
  unfold qneg
  rw [Rat.mkRat_eq_div]
  push_cast
  rw [neg_div, Rat.num_div_den]

lemma qsub_eq (a b : ℚ) : qsub a b = a - b := by
  rw [qsub, qadd_eq, qneg_eq, sub_eq_add_neg]

lemma qmul_eq (a b : ℚ) : qmul a b = a * b := by
  unfold qmul
  rw [Rat.mkRat_eq_div]
  push_cast
  rw [div_eq_iff (by positivity : ((a.den : ℚ) * b.den) ≠ 0)]
  rw [← mul_den_eq_num a, ← mul_den_eq_num b]
  ring

lemma qdiv_eq (a b : ℚ) : qdiv a b = a / b := by
  unfold qdiv
  by_cases hb : b.num = 0
  · have hb0 : b = 0 := by
      rwa [Rat.num_eq_zero] at hb
    simp [hb, hb0, Rat.mkRat_eq_div]
  · have hbq : (b.num : ℚ) ≠ 0 := by exact_mod_cast hb
    have hb0 : b ≠ 0 := by
      intro h
      exact hb (by simp [h])
    split_ifs with hs
    · have habs : ((a.den * b.num.natAbs : ℕ) : ℚ) = (a.den : ℚ) * (b.num : ℚ) := by
        push_cast [Int.cast_natAbs]
        rw [abs_of_nonneg (show (0 : ℚ) ≤ (b.num : ℚ) by exact_mod_cast hs)]
      rw [Rat.mkRat_eq_div, habs]
      have hne : (a.den : ℚ) * (b.num : ℚ) ≠ 0 := mul_ne_zero (den_cast_ne_zero a) hbq
      rw [div_eq_div_iff hne hb0]
      push_cast
      rw [← mul_den_eq_num a, ← mul_den_eq_num b]
      ring
    · push_neg at hs
      have habs : ((a.den * b.num.natAbs : ℕ) : ℚ) = -((a.den : ℚ) * (b.num : ℚ)) := by
        push_cast [Int.cast_natAbs]
        rw [abs_of_neg (show (b.num : ℚ) < 0 by exact_mod_cast hs)]
        ring
      rw [Rat.mkRat_eq_div, habs]
      push_cast
      rw [div_neg, neg_div, neg_neg]
      have hne : (a.den : ℚ) * (b.num : ℚ) ≠ 0 := mul_ne_zero (den_cast_ne_zero a) hbq
      rw [div_eq_div_iff hne hb0]
      rw [← mul_den_eq_num a, ← mul_den_eq_num b]
      ring

lemma qabs_eq (a : ℚ) : qabs a = |a| := by
  unfold qabs
  have hd : (0 : ℚ) < (a.den : ℚ) := by
    exact_mod_cast Nat.cast_pos.mpr a.pos
  rw [Rat.mkRat_eq_div]
  have h1 : ((a.num.natAbs : ℤ) : ℚ) = |(a.num : ℚ)| := by
    push_cast
    ring
  rw [h1]
  conv_rhs => rw [← Rat.num_div_den a]
  rw [abs_div, abs_of_pos hd]

/-- Idealised JavaScript number: an exact rational or one of the special
IEEE-754 values. -/
inductive F where
  | fin (q : ℚ)
  | inf
  | ninf
  | nan
  deriving DecidableEq, Repr

namespace F

instance : OfNat F 0 := ⟨F.fin 0⟩
instance : OfNat F 1 := ⟨F.fin 1⟩

/-- `Number.isFinite` / `Number.isFinite(value)`. -/
def isFinite : F → Bool
  | fin _ => true
  | _ => false

/-- JS unary minus on numbers. -/
def fneg : F → F
  | fin q => fin (qneg q)
  | inf => ninf
  | ninf => inf
  | nan => nan

/-- JS `+` on numbers (idealised: no rounding/overflow on finite values). -/
def fadd : F → F → F
  | nan, _ => nan
  | _, nan => nan
  | inf, ninf => nan
  | ninf, inf => nan
  | inf, _ => inf
  | _, inf => inf
  | ninf, _ => ninf
  | _, ninf => ninf
  | fin a, fin b => fin (qadd a b)

/-- JS `-` on numbers. -/
def fsub (a b : F) : F := fadd a (fneg b)

/-- JS `*` on numbers (`Infinity * 0 = NaN`,
sign-correct infinite products). -/
def fmul : F → F → F
  | nan, _ => nan
  | _, nan => nan
  | inf, inf => inf
  | inf, ninf => ninf
  | ninf, inf => ninf
  | ninf, ninf => inf
  | inf, fin b => if b = 0 then nan else if 0 < b then inf else ninf
  | fin a, inf => if a = 0 then nan else if 0 < a then inf else ninf
  | ninf, fin b => if b = 0 then nan else if 0 < b then ninf else inf
  | fin a, ninf => if a = 0 then nan else if 0 < a then ninf else inf
  | fin a, fin b => fin (qmul a b)

/-- JS `/` on numbers (`x/0` gives a signed infinity, `0/0 = NaN`,
`x/Infinity = 0`, `Infinity/Infinity = NaN`; the idealisation has a single
zero, treated as `+0`). -/
def fdiv : F → F → F
  | nan, _ => nan
  | _, nan => nan
  | inf, inf => nan
  | inf, ninf => nan
  | ninf, inf => nan
  | ninf, ninf => nan
  | inf, fin b => if 0 ≤ b then inf else ninf
  | ninf, fin b => if 0 ≤ b then ninf else inf
  | fin _, inf => fin 0
  | fin _, ninf => fin 0
  | fin a, fin b =>
    if b = 0 then (if a = 0 then nan else if 0 < a then inf else ninf)
    else fin (qdiv a b)

/-- JS `<` on numbers (`NaN` compares false against everything). -/
def fltB : F → F → Bool
  | nan, _ => false
  | _, nan => false
  | fin a, fin b => decide (a < b)
  | fin _, inf => true
  | ninf, fin _ => true
  | ninf, inf => true
  | _, _ => false

/-- `Math.abs(v) < 1e-9`: the numeric tolerance test of the source
(`false` on the special values, as in JS). -/
def absLtTol : F → Bool
  | fin q => decide (qabs q < mkRat 1 1000000000)
  | _ => false

/-- `Math.abs(v) > 0` (used by the bare-variable quotient rule;
`true` on infinities, `false` on `NaN`). -/
def absPos : F → Bool
  | fin q => decide (0 < qabs q)
  | nan => false
  | _ => true

end F

open F

/-- Binary operator tags (`OP_INFO` keys minus unary negation). -/
inductive BinOp where
  | add | sub | mul | div | pow
  deriving DecidableEq, Repr

/-- The recognised function identifiers (`FUNCTIONS` set of parser.js). -/
inductive FuncName where
  | sin | cos | tan | cot | sec | csc | exp | ln | log | sqrt | abs
  deriving DecidableEq, Repr

/-- The two variable symbols accepted by the tokenizer. -/
inductive VarName where
  | x | y
  deriving DecidableEq, Repr

/-- Interpretations of the opaque numeric primitives (`Math.pow` and the
named `Math.*` unary functions), together with the float64-exact laws used
by the proofs.  All results below hold for every interpretation. -/
structure Prims where
  pow : F → F → F
  fnsem : FuncName → F → F
  pow_zero : ∀ a, pow a (F.fin 0) = F.fin 1
  pow_one : ∀ a, pow a (F.fin 1) = a
  pow_nan_right : ∀ a, pow a F.nan = F.nan
  pow_nan_left : ∀ b, b ≠ F.fin 0 → pow F.nan b = F.nan
  fnsem_nan : ∀ name, fnsem name F.nan = F.nan

/-- A concrete computable interpretation of the primitives, used to run the
embedded code on concrete inputs (integer powers are exact; everything the
source never folds is junk). -/
def ratJsPrims : Prims where
  pow a b :=
    match b with
    | F.fin q =>
      if q = 0 then F.fin 1
      else if q = 1 then a
      else
        match a with
        | F.nan => F.nan
        | _ => F.fin 0
    | _ => F.nan
  fnsem _ v :=
    match v with
    | F.nan => F.nan
    | _ => F.fin 0
  pow_zero a := by simp
  pow_one a := by
    cases a <;> norm_num
  pow_nan_right a := by cases a <;> rfl
  pow_nan_left b hb := by
    cases b with
    | fin q =>
      by_cases h0 : q = 0
      · exact absurd (by rw [h0]) hb
      · by_cases h1 : q = 1 <;> simp [h0, h1]
    | inf => rfl
    | ninf => rfl
    | nan => rfl
  fnsem_nan _ := rfl

/-- Expression AST: the closed tagged union of parser.js
(`number` / `variable` / unary negation / `function` / `binary`). -/
inductive Node where
  | num (value : F)
  | var (name : VarName)
  | neg (argument : Node)
  | fn (name : FuncName) (argument : Node)
  | binary (op : BinOp) (left : Node) (right : Node)
  deriving DecidableEq, Repr

namespace Node

/-- `cloneNode`: deep structural copy (trivially the identity in a
value-semantics embedding, kept for fidelity). -/
def cloneNode : Node → Node
  | num v => num v
  | var n => var n
  | neg a => neg (cloneNode a)
  | fn name a => fn name (cloneNode a)
  | binary op l r => binary op (cloneNode l) (cloneNode r)

theorem cloneNode_eq (n : Node) : cloneNode n = n := by
  induction n with
  | num v => rfl
  | var n => rfl
  | neg a ih => simp [cloneNode, ih]
  | fn name a ih => simp [cloneNode, ih]
  | binary op l r ihl ihr => simp [cloneNode, ihl, ihr]

/-- `isZeroNode`: a number literal within absolute tolerance `1e-9` of 0. -/
def isZeroNode : Node → Bool
  | num v => v.absLtTol
  | _ => false

/-- `isOneNode`: a number literal within absolute tolerance `1e-9` of 1. -/
def isOneNode : Node → Bool
  | num v => (fsub v (F.fin 1)).absLtTol
  | _ => false

/-- `evalBinary` of parser.js (the `^` case is `Math.pow`, i.e. the
abstract `pow` primitive). -/
def evalBinary (P : Prims) : BinOp → F → F → F
  | .add, a, b => fadd a b
  | .sub, a, b => fsub a b
  | .mul, a, b => fmul a b
  | .div, a, b => fdiv a b
  | .pow, a, b => P.pow a b

/-- The unary-negation case of `simplifyNode` applied to an already
simplified argument: fold a numeric literal, stay structural otherwise. -/
def simplifyNeg : Node → Node
  | num v => num (fneg v)
  | arg => neg arg

/-- The binary case of `simplifyNode` applied to already simplified
children: constant folding first, then the identity rules of the source,
in source order. -/
def simplifyBinary (P : Prims) (op : BinOp) (left right : Node) : Node :=
  match left, right with
  | num a, num b => num (evalBinary P op a b)
  | left, right =>
    match op with
    | .add =>
      if isZeroNode left then right
      else if isZeroNode right then left
      else binary .add left right
    | .sub =>
      if isZeroNode right then left
      else binary .sub left right
    | .mul =>
      if isZeroNode left || isZeroNode right then num (F.fin 0)
      else if isOneNode left then right
      else if isOneNode right then left
      else binary .mul left right
    | .div =>
      if isZeroNode left then num (F.fin 0)
      else if isOneNode right then left
      else binary .div left right
    | .pow =>
      if isZeroNode right then num (F.fin 1)
      else if isOneNode right then left
      else binary .pow left right

/-- `simplifyNode` of parser.js: bottom-up constant folding plus the
additive/multiplicative/power identity rules.  The source's re-check of
`left`/`right` both numeric inside the `^` branch is unreachable (the fold
above it already handled that case) and is omitted; the source's branch for
unary operators other than negation is unreachable in the closed AST. -/
def simplifyNode (P : Prims) : Node → Node
  | num v => num v
  | var n => var n
  | neg a => simplifyNeg (simplifyNode P a)
  | fn name a => fn name (simplifyNode P a)
  | binary op l r => simplifyBinary P op (simplifyNode P l) (simplifyNode P r)

/-- `dependsOn`: does the node mention the given variable. -/
def dependsOn : Node → VarName → Bool
  | num _, _ => false
  | var n, v => n = v
  | neg a, v => dependsOn a v
  | fn _ a, v => dependsOn a v
  | binary _ l r, v => dependsOn l v || dependsOn r v

/-- `isConstantWithRespectTo`. -/
def isConstantWithRespectTo (n : Node) (v : VarName) : Bool :=
  ! dependsOn n v

/-- `evaluateNode` with the scope `{x, y}` the solver always supplies
(`createDerivativeEvaluator` binds both variable symbols, so the
undefined-variable throw of the source is unreachable here). -/
def evaluateNode (P : Prims) : Node → F → F → F
  | num v, _, _ => v
  | var .x, x, _ => x
  | var .y, _, y => y
  | neg a, x, y => fneg (evaluateNode P a x y)
  | fn name a, x, y => P.fnsem name (evaluateNode P a x y)
  | binary op l r, x, y =>
    evalBinary P op (evaluateNode P l x y) (evaluateNode P r x y)

/-- `makeAdd`. -/
def makeAdd (P : Prims) (a b : Node) : Node := simplifyNode P (binary .add a b)

/-- `makeSub`. -/
def makeSub (P : Prims) (a b : Node) : Node := simplifyNode P (binary .sub a b)

/-- `makeMul`. -/
def makeMul (P : Prims) (a b : Node) : Node := simplifyNode P (binary .mul a b)

/-- `makeDiv`. -/
def makeDiv (P : Prims) (a b : Node) : Node := simplifyNode P (binary .div a b)

/-- `makePow`. -/
def makePow (P : Prims) (a b : Node) : Node := simplifyNode P (binary .pow a b)

/-- `makeNeg`. -/
def makeNeg (P : Prims) (a : Node) : Node := simplifyNode P (neg a)

/-- `isNumberNode`. -/
def isNumberNode : Node → Bool
  | num _ => true
  | _ => false

/-- `isVariableNode`. -/
def isVariableNode : Node → VarName → Bool
  | var n, v => n = v
  | _, _ => false

end Node

/-! ## Number formatting and rendering (`formatNumber`, `nodeToString`) -/

/-- Little-endian base-10 digits, by structural fuel recursion (the fuel
`n` always suffices since `n / 10 < n` for `n > 0`). -/
def natDigitsGo : ℕ → ℕ → List ℕ
  | 0, _ => []
  | _, 0 => []
  | fuel + 1, n + 1 => ((n + 1) % 10) :: natDigitsGo fuel ((n + 1) / 10)

/-- Little-endian base-10 digits of a natural number. -/
def natDigits (n : ℕ) : List ℕ := natDigitsGo n n

/-- Decimal digit string of a natural number (big-endian). -/
def natDecimal (n : ℕ) : String :=
  if n = 0 then "0"
  else String.mk ((natDigits n).reverse.map Nat.digitChar)

/-- Decimal string of an integer (the `Number.prototype.toString` of an
integral float64, idealised to plain decimal notation). -/
def intDecimal (n : ℤ) : String :=
  if n < 0 then "-" ++ natDecimal n.natAbs else natDecimal n.natAbs

/-- Round half away from zero at six fractional digits: the integer
`n` with `n / 10^6` closest to `q`, ties picking the larger magnitude on
the absolute value as `toFixed` does (ECMA `toFixed` applies to the
absolute value and re-attaches the sign). -/
def jsToFixed6 (q : ℚ) : ℤ :=
  if q < 0 then -⌊qadd (qmul (qneg q) (mkRat 1000000 1)) (mkRat 1 2)⌋
  else ⌊qadd (qmul q (mkRat 1000000 1)) (mkRat 1 2)⌋

/-- The fractional digits of `n % 10^6`, padded to six digits and with
trailing zeros stripped (what survives `parseFloat(...).toString()`). -/
def fracDigits (fr : ℕ) : String :=
  let ds := natDigits fr
  let padded := ds ++ List.replicate (6 - ds.length) 0
  String.mk ((padded.dropWhile (· = 0)).reverse.map Nat.digitChar)

/-- The decimal string denoting `n / 10^6`, trailing fractional zeros
stripped, no decimal point when the fraction vanishes. -/
def renderRounded6 (n : ℤ) : String :=
  let sign := if n < 0 then "-" else ""
  let m := n.natAbs
  let ip := m / 1000000
  let fr := m % 1000000
  if fr = 0 then sign ++ natDecimal ip
  else sign ++ natDecimal ip ++ "." ++ fracDigits fr

/-- The rational value denoted by the string `formatNumber` produces for a
finite value (exact for integers, otherwise the six-digit rounding). -/
def formatNumberVal (q : ℚ) : ℚ :=
  if q.den = 1 then q else mkRat (jsToFixed6 q) 1000000

/-- `formatNumber` of parser.js: integral values print exactly
(`value.toString()`), all other finite values via
`parseFloat(value.toFixed(6)).toString()`, i.e. rounded to at most six
fractional digits with trailing zeros stripped. -/
def formatNumber : F → String
  | F.fin q => if q.den = 1 then intDecimal q.num else renderRounded6 (jsToFixed6 q)
  | F.inf => "Infinity"
  | F.ninf => "-Infinity"
  | F.nan => "NaN"

namespace Node

/-- `PREC_MAP` lookup of `getPrecedence`. -/
def getPrecedence : Node → ℕ
  | binary .pow _ _ => 3
  | binary .mul _ _ => 2
  | binary .div _ _ => 2
  | binary .add _ _ => 1
  | binary .sub _ _ => 1
  | neg _ => 4
  | _ => 5

/-- Rendered operator symbol. -/
def opStr : BinOp → String
  | .add => "+"
  | .sub => "-"
  | .mul => "*"
  | .div => "/"
  | .pow => "^"

/-- Rendered function identifier. -/
def funcStr : FuncName → String
  | .sin => "sin"
  | .cos => "cos"
  | .tan => "tan"
  | .cot => "cot"
  | .sec => "sec"
  | .csc => "csc"
  | .exp => "exp"
  | .ln => "ln"
  | .log => "log"
  | .sqrt => "sqrt"
  | .abs => "abs"

/-- Side of a binary parent, for the parenthesisation rule. -/
inductive Side where
  | left | right
  deriving DecidableEq, Repr

/-- `needsParens` (used under unary minus): only binary children are
parenthesised. -/
def needsParens : Node → Bool
  | binary _ _ _ => true
  | _ => false

/-- `shouldWrap`: a binary child is parenthesised when its precedence is
lower than the parent's, or equal with a non-associative-side parent
(`^`, and the right side of `-` and `/`). -/
def shouldWrap (n : Node) (parentPrec : ℕ) (side : Side) (parentOp : BinOp) : Bool :=
  match n with
  | binary _ _ _ =>
    let childPrec := getPrecedence n
    if childPrec < parentPrec then true
    else if childPrec = parentPrec then
      match parentOp with
      | .pow => side = Side.right
      | .sub => side = Side.right
      | .div => side = Side.right
      | _ => false
    else false
  | _ => false

/-- `nodeToString` of parser.js.  The `parentOp`/`position` parameters of
the source are threaded but never read (wrapping is decided by
`shouldWrap` against the parent's own operator), so they are omitted;
the source's branch for unary operators other than negation is
unreachable. -/
def nodeToString : Node → String
  | num v => formatNumber v
  | var .x => "x"
  | var .y => "y"
  | neg a =>
    let inner := nodeToString a
    "-" ++ (if needsParens a then "(" ++ inner ++ ")" else inner)
  | fn name a => funcStr name ++ "(" ++ nodeToString a ++ ")"
  | binary op l r =>
    let currentPrec := getPrecedence (binary op l r)
    let leftStr := nodeToString l
    let rightStr := nodeToString r
    let left := if shouldWrap l currentPrec Side.left op then "(" ++ leftStr ++ ")" else leftStr
    let right := if shouldWrap r currentPrec Side.right op then "(" ++ rightStr ++ ")" else rightStr
    left ++ " " ++ opStr op ++ " " ++ right

/-- `flattenProduct` helper: the boolean marks a denominator factor. -/
def flattenProductAux : Node → Bool → List (Node × Bool)
  | binary .mul l r, d => flattenProductAux l d ++ flattenProductAux r d
  | binary .div l r, d => flattenProductAux l d ++ flattenProductAux r (!d)
  | n, d => [(n, d)]

/-- `flattenProduct`: split nested `*`/`/` into a signed factor list. -/
def flattenProduct (n : Node) : List (Node × Bool) :=
  flattenProductAux n false

/-- `flattenSum` helper: the integer is the running sign. -/
def flattenSumAux (P : Prims) : Node → ℤ → List Node
  | binary .add l r, s => flattenSumAux P l s ++ flattenSumAux P r s
  | binary .sub l r, s => flattenSumAux P l s ++ flattenSumAux P r (-s)
  | n, s => if s = -1 then [makeMul P (num (F.fin (-1))) n] else [n]

/-- `flattenSum`: split nested `+`/`-` into a term list, negated terms
multiplied by `-1`. -/
def flattenSum (P : Prims) (n : Node) : List Node :=
  flattenSumAux P n 1

end Node

/-! ## Idempotence of the simplifier -/

namespace Node

/-- Fixpoint characterisation of `simplifyNode`: the children are
simplified and no folding or identity rule fires at the root. -/
def isSimplified : Node → Bool
  | num _ => true
  | var _ => true
  | neg a => isSimplified a && !a.isNumberNode
  | fn _ a => isSimplified a
  | binary op l r =>
    isSimplified l && isSimplified r && !(l.isNumberNode && r.isNumberNode) &&
    (match op with
     | .add => !isZeroNode l && !isZeroNode r
     | .sub => !isZeroNode r
     | .mul => !(isZeroNode l || isZeroNode r) && !isOneNode l && !isOneNode r
     | .div => !isZeroNode l && !isOneNode r
     | .pow => !isZeroNode r && !isOneNode r)

lemma simplifyNeg_isSimplified {a : Node} (h : isSimplified a = true) :
    isSimplified (simplifyNeg a) = true := by
  cases a <;> simp_all [simplifyNeg, isSimplified, isNumberNode]

lemma not_both_num {l r : Node}
    (h : ∀ (a b : F), l = num a → r = num b → False) :
    (l.isNumberNode && r.isNumberNode) = false := by
  cases l <;> cases r <;> simp [isNumberNode]
  exact h _ _ rfl rfl

lemma simplifyBinary_isSimplified (P : Prims) (op : BinOp) {l r : Node}
    (hl : isSimplified l = true) (hr : isSimplified r = true) :
    isSimplified (simplifyBinary P op l r) = true := by
  unfold simplifyBinary
  split
  · simp [isSimplified]
  · rename_i l' r' h
    cases op <;> split_ifs <;>
      simp_all [isSimplified, not_both_num h]

lemma isSimplified_fix (P : Prims) {n : Node} (h : isSimplified n = true) :
    simplifyNode P n = n := by
  induction n with
  | num v => rfl
  | var v => rfl
  | neg a ih =>
    simp only [isSimplified, Bool.and_eq_true, Bool.not_eq_true'] at h
    rw [simplifyNode, ih h.1]
    cases a <;> simp_all [simplifyNeg, isNumberNode]
  | fn name a ih =>
    simp only [isSimplified] at h
    rw [simplifyNode, ih h]
  | binary op l r ihl ihr =>
    simp only [isSimplified, Bool.and_eq_true, Bool.not_eq_true'] at h
    obtain ⟨⟨⟨hl, hr⟩, hnb⟩, hop⟩ := h
    rw [simplifyNode, ihl hl, ihr hr]
    unfold simplifyBinary
    split
    · rename_i a b
      simp [isNumberNode] at hnb
    · cases op <;> simp only at hop <;> split_ifs <;> simp_all

lemma simplify_isSimplified (P : Prims) (n : Node) :
    isSimplified (simplifyNode P n) = true := by
  induction n with
  | num v => rfl
  | var v => rfl
  | neg a ih => exact simplifyNeg_isSimplified ih
  | fn name a ih => simpa [simplifyNode, isSimplified] using ih
  | binary op l r ihl ihr => exact simplifyBinary_isSimplified P op ihl ihr

end Node

/-! ## Semantic preservation of the simplifier

The identity rules of `simplifyNode` test literals against an absolute
tolerance of `1e-9` (`isZeroNode` / `isOneNode`).  When such a test fires
on a literal that is *not* exactly `0` (resp. `1`) the rewrite changes the
value of the expression, so exact semantic preservation holds precisely on
nodes whose tolerance tests only ever fire on exact literals.  `okLit`
states this for one (already simplified) child, `toleranceExact` for a
whole tree. -/

namespace Node

/-- The tolerance tests on this node are exact: if it is within the zero
band it is exactly `0`, if within the one band exactly `1`. -/
def okLit (n : Node) : Bool :=
  (!isZeroNode n || n == num (F.fin 0)) && (!isOneNode n || n == num (F.fin 1))

/-- Every tolerance test performed while simplifying the node is exact. -/
def toleranceExact (P : Prims) : Node → Bool
  | num _ => true
  | var _ => true
  | neg a => toleranceExact P a
  | fn _ a => toleranceExact P a
  | binary _ l r =>
    toleranceExact P l && toleranceExact P r &&
    okLit (simplifyNode P l) && okLit (simplifyNode P r)

lemma okLit_zero {m : Node} (hok : okLit m = true) (hz : isZeroNode m = true) :
    m = num (F.fin 0) := by
  unfold okLit at hok
  simp only [Bool.and_eq_true, Bool.or_eq_true, Bool.not_eq_true'] at hok
  rcases hok.1 with h | h
  · rw [hz] at h; cases h
  · exact beq_iff_eq.mp h

lemma okLit_one {m : Node} (hok : okLit m = true) (ho : isOneNode m = true) :
    m = num (F.fin 1) := by
  unfold okLit at hok
  simp only [Bool.and_eq_true, Bool.or_eq_true, Bool.not_eq_true'] at hok
  rcases hok.2 with h | h
  · rw [ho] at h; cases h
  · exact beq_iff_eq.mp h

end Node

namespace F

lemma fadd_nan_left (w : F) : fadd nan w = nan := by cases w <;> rfl

lemma fadd_nan_right (w : F) : fadd w nan = nan := by cases w <;> rfl

lemma fadd_zero_left (w : F) : fadd (fin 0) w = w := by
  cases w <;> simp [fadd, qadd_eq]

lemma fadd_zero_right (w : F) : fadd w (fin 0) = w := by
  cases w <;> simp [fadd, qadd_eq]

lemma fneg_zero : fneg (fin 0) = fin 0 := by simp [fneg, qneg_eq]

lemma fsub_nan_left (w : F) : fsub nan w = nan := by cases w <;> rfl

lemma fsub_nan_right (w : F) : fsub w nan = nan := by cases w <;> rfl

lemma fsub_zero_right (w : F) : fsub w (fin 0) = w := by
  rw [fsub, fneg_zero, fadd_zero_right]

lemma fmul_nan_left (w : F) : fmul nan w = nan := by cases w <;> rfl

lemma fmul_nan_right (w : F) : fmul w nan = nan := by cases w <;> rfl

lemma fmul_one_left (w : F) : fmul (fin 1) w = w := by
  cases w <;> norm_num [fmul, qmul_eq]

lemma fmul_one_right (w : F) : fmul w (fin 1) = w := by
  cases w <;> norm_num [fmul, qmul_eq]

lemma fmul_zero_left (w : F) : fmul (fin 0) w = fin 0 ∨ fmul (fin 0) w = nan := by
  cases w <;> simp [fmul, qmul_eq]

lemma fmul_zero_right (w : F) : fmul w (fin 0) = fin 0 ∨ fmul w (fin 0) = nan := by
  cases w <;> simp [fmul, qmul_eq]

lemma fdiv_nan_left (w : F) : fdiv nan w = nan := by cases w <;> rfl

lemma fdiv_nan_right (w : F) : fdiv w nan = nan := by cases w <;> rfl

lemma fdiv_zero_left (w : F) : fdiv (fin 0) w = fin 0 ∨ fdiv (fin 0) w = nan := by
  cases w with
  | fin b => by_cases hb : b = 0 <;> simp [fdiv, hb, qdiv_eq]
  | inf => simp [fdiv]
  | ninf => simp [fdiv]
  | nan => simp [fdiv]

lemma fdiv_one_right (w : F) : fdiv w (fin 1) = w := by
  cases w <;> norm_num [fdiv, qdiv_eq]

end F

namespace Node

lemma eval_simplifyNeg (P : Prims) (m : Node) (x y : F) :
    evaluateNode P (simplifyNeg m) x y = fneg (evaluateNode P m x y) := by
  cases m <;> rfl

lemma eval_simplifyBinary (P : Prims) (x y : F) (op : BinOp) (L R : Node)
    (okL : okLit L = true) (okR : okLit R = true) (wl wr : F)
    (hL : evaluateNode P L x y = wl ∨ wl = F.nan)
    (hR : evaluateNode P R x y = wr ∨ wr = F.nan) :
    evaluateNode P (simplifyBinary P op L R) x y = evalBinary P op wl wr ∨
      evalBinary P op wl wr = F.nan := by
  have nanRight : ∀ (o : BinOp) (w : F), evalBinary P o w F.nan = F.nan := by
    intro o w
    cases o
    · exact fadd_nan_right w
    · exact fsub_nan_right w
    · exact fmul_nan_right w
    · exact fdiv_nan_right w
    · exact P.pow_nan_right w
  unfold simplifyBinary
  split
  · -- both children are numeric literals: constant folding
    rename_i a b
    simp only [evaluateNode] at hL hR ⊢
    rcases hL with hwl | hwl <;> rcases hR with hwr | hwr
    · left; rw [hwl, hwr]
    · right; rw [hwr]; exact nanRight op wl
    · subst hwr
      cases op with
      | add => right; rw [hwl]; exact fadd_nan_left b
      | sub => right; rw [hwl]; exact fsub_nan_left b
      | mul => right; rw [hwl]; exact fmul_nan_left b
      | div => right; rw [hwl]; exact fdiv_nan_left b
      | pow =>
        by_cases hb : b = F.fin 0
        · subst hb; left
          simp only [evalBinary, P.pow_zero]
        · right
          simp only [evalBinary, hwl]
          exact P.pow_nan_left b hb
    · right; rw [hwr]; exact nanRight op wl
  · -- at least one child is not a literal: identity rules
    rename_i L' R' hnum
    cases op
    case add =>
      dsimp only
      split_ifs with hz1 hz2
      · have hL0 := okLit_zero okL hz1
        subst hL0
        simp only [evaluateNode] at hL
        rcases hL with hwl | hwl
        · simp only [evalBinary, ← hwl, fadd_zero_left]
          exact hR
        · right; simp only [evalBinary, hwl, fadd_nan_left]
      · have hR0 := okLit_zero okR hz2
        subst hR0
        simp only [evaluateNode] at hR
        rcases hR with hwr | hwr
        · simp only [evalBinary, ← hwr, fadd_zero_right]
          exact hL
        · right; simp only [evalBinary, hwr, fadd_nan_right]
      · rcases hL with hwl | hwl
        · rcases hR with hwr | hwr
          · left; simp only [evaluateNode, evalBinary, hwl, hwr]
          · right; simp only [evalBinary, hwr, fadd_nan_right]
        · right; simp only [evalBinary, hwl, fadd_nan_left]
    case sub =>
      dsimp only
      split_ifs with hz1
      · have hR0 := okLit_zero okR hz1
        subst hR0
        simp only [evaluateNode] at hR
        rcases hR with hwr | hwr
        · simp only [evalBinary, ← hwr, fsub_zero_right]
          exact hL
        · right; simp only [evalBinary, hwr, fsub_nan_right]
      · rcases hL with hwl | hwl
        · rcases hR with hwr | hwr
          · left; simp only [evaluateNode, evalBinary, hwl, hwr]
          · right; simp only [evalBinary, hwr, fsub_nan_right]
        · right; simp only [evalBinary, hwl, fsub_nan_left]
    case mul =>
      dsimp only
      split_ifs with hz1 ho1 ho2
      · rcases Bool.or_eq_true _ _ |>.mp hz1 with hz | hz
        · have hL0 := okLit_zero okL hz
          subst hL0
          simp only [evaluateNode] at hL ⊢
          rcases hL with hwl | hwl
          · rw [← hwl]
            rcases fmul_zero_left wr with h | h
            · left; simp only [evalBinary, h]
            · right; simp only [evalBinary, h]
          · right; simp only [evalBinary, hwl, fmul_nan_left]
        · have hR0 := okLit_zero okR hz
          subst hR0
          simp only [evaluateNode] at hR ⊢
          rcases hR with hwr | hwr
          · rw [← hwr]
            rcases fmul_zero_right wl with h | h
            · left; simp only [evalBinary, h]
            · right; simp only [evalBinary, h]
          · right; simp only [evalBinary, hwr, fmul_nan_right]
      · have hL1 := okLit_one okL ho1
        subst hL1
        simp only [evaluateNode] at hL
        rcases hL with hwl | hwl
        · simp only [evalBinary, ← hwl, fmul_one_left]
          exact hR
        · right; simp only [evalBinary, hwl, fmul_nan_left]
      · have hR1 := okLit_one okR ho2
        subst hR1
        simp only [evaluateNode] at hR
        rcases hR with hwr | hwr
        · simp only [evalBinary, ← hwr, fmul_one_right]
          exact hL
        · right; simp only [evalBinary, hwr, fmul_nan_right]
      · rcases hL with hwl | hwl
        · rcases hR with hwr | hwr
          · left; simp only [evaluateNode, evalBinary, hwl, hwr]
          · right; simp only [evalBinary, hwr, fmul_nan_right]
        · right; simp only [evalBinary, hwl, fmul_nan_left]
    case div =>
      dsimp only
      split_ifs with hz1 ho1
      · have hL0 := okLit_zero okL hz1
        subst hL0
        simp only [evaluateNode] at hL ⊢
        rcases hL with hwl | hwl
        · rw [← hwl]
          rcases fdiv_zero_left wr with h | h
          · left; simp only [evalBinary, h]
          · right; simp only [evalBinary, h]
        · right; simp only [evalBinary, hwl, fdiv_nan_left]
      · have hR1 := okLit_one okR ho1
        subst hR1
        simp only [evaluateNode] at hR
        rcases hR with hwr | hwr
        · simp only [evalBinary, ← hwr, fdiv_one_right]
          exact hL
        · right; simp only [evalBinary, hwr, fdiv_nan_right]
      · rcases hL with hwl | hwl
        · rcases hR with hwr | hwr
          · left; simp only [evaluateNode, evalBinary, hwl, hwr]
          · right; simp only [evalBinary, hwr, fdiv_nan_right]
        · right; simp only [evalBinary, hwl, fdiv_nan_left]
    case pow =>
      dsimp only
      split_ifs with hz1 ho1
      · have hR0 := okLit_zero okR hz1
        subst hR0
        simp only [evaluateNode] at hR
        rcases hR with hwr | hwr
        · left; simp only [evalBinary, ← hwr, P.pow_zero, evaluateNode]
        · right; simp only [evalBinary, hwr, P.pow_nan_right]
      · have hR1 := okLit_one okR ho1
        subst hR1
        simp only [evaluateNode] at hR
        rcases hR with hwr | hwr
        · simp only [evalBinary, ← hwr, P.pow_one]
          exact hL
        · right; simp only [evalBinary, hwr, P.pow_nan_right]
      · rcases hL with hwl | hwl
        · rcases hR with hwr | hwr
          · left; simp only [evaluateNode, evalBinary, hwl, hwr]
          · right; simp only [evalBinary, hwr, P.pow_nan_right]
        · rcases hR with hwr | hwr
          · by_cases h0 : wr = F.fin 0
            · subst h0
              left
              simp only [evaluateNode, evalBinary, hwr, P.pow_zero]
            · right
              simp only [evalBinary, hwl]
              exact P.pow_nan_left wr h0
          · right; simp only [evalBinary, hwr, P.pow_nan_right]

/-- Simplification preserves evaluation up to `NaN`: on a tolerance-exact
node the simplified tree evaluates to the same value unless the original
already evaluates to `NaN`. -/
lemma eval_simplify_or_nan (P : Prims) (x y : F) :
    ∀ n : Node, toleranceExact P n = true →
      evaluateNode P (simplifyNode P n) x y = evaluateNode P n x y ∨
        evaluateNode P n x y = F.nan := by
  intro n
  induction n with
  | num v => intro _; left; rfl
  | var v => intro _; left; rfl
  | neg a ih =>
    intro h
    rw [simplifyNode, eval_simplifyNeg]
    rcases ih h with he | hn
    · left; rw [evaluateNode, he]
    · right
      have : evaluateNode P (neg a) x y = fneg (evaluateNode P a x y) := rfl
      rw [this, hn]
      rfl
  | fn name a ih =>
    intro h
    rcases ih h with he | hn
    · left
      show P.fnsem name (evaluateNode P (simplifyNode P a) x y) =
        P.fnsem name (evaluateNode P a x y)
      rw [he]
    · right
      show P.fnsem name (evaluateNode P a x y) = F.nan
      rw [hn]
      exact P.fnsem_nan name
  | binary op l r ihl ihr =>
    intro h
    simp only [toleranceExact, Bool.and_eq_true] at h
    obtain ⟨⟨⟨tl, tr⟩, okL⟩, okR⟩ := h
    exact eval_simplifyBinary P x y op _ _ okL okR _ _ (ihl tl) (ihr tr)

end Node

/-! ## Claims C1 and C2 -/

/-- C1 (amended): `simplifyNode` is total on the five AST variants (by
construction of the closed `Node` type) and preserves evaluation at every
point where the original expression evaluates to a finite value, provided
every `1e-9`-tolerance identity test fired during simplification is exact
(`toleranceExact`).  As stated — with the tolerance admitted for identity
detection — the claim fails: a literal strictly inside a tolerance band is
absorbed and changes the value (see the counterexample). -/
theorem simplifyNode_preserves_semantics (P : Prims) (n : Node) (x y : F)
    (h : Node.toleranceExact P n = true)
    (hfin : (Node.evaluateNode P n x y).isFinite = true) :
    Node.evaluateNode P (Node.simplifyNode P n) x y =
      Node.evaluateNode P n x y := by
  rcases Node.eval_simplify_or_nan P x y n h with he | hn
  · exact he
  · rw [hn] at hfin
    cases hfin

/-- Witness for the amended C1 at `x + 2` evaluated at `x = 1`. -/
theorem simplifyNode_preserves_semantics_witness :
    Node.toleranceExact ratJsPrims
        (Node.binary .add (Node.var .x) (Node.num (F.fin 2))) = true ∧
      Node.evaluateNode ratJsPrims
        (Node.simplifyNode ratJsPrims
          (Node.binary .add (Node.var .x) (Node.num (F.fin 2))))
        (F.fin 1) (F.fin 0) =
      Node.evaluateNode ratJsPrims
        (Node.binary .add (Node.var .x) (Node.num (F.fin 2)))
        (F.fin 1) (F.fin 0) :=
  ⟨by decide,
    simplifyNode_preserves_semantics ratJsPrims _ _ _ (by decide) (by decide)⟩

/-- C1 counterexample: `x + 5e-10` and its simplification `x` are both
defined (finite) at `x = 0` yet evaluate differently — the additive-identity
rule fires on the literal `5e-10`, which lies strictly inside the `1e-9`
zero band, and drops it. -/
theorem simplifyNode_tolerance_counterexample :
    (Node.evaluateNode ratJsPrims
        (Node.binary .add (Node.var .x) (Node.num (F.fin (mkRat 1 2000000000))))
        (F.fin 0) (F.fin 0)).isFinite = true ∧
      (Node.evaluateNode ratJsPrims
        (Node.simplifyNode ratJsPrims
          (Node.binary .add (Node.var .x) (Node.num (F.fin (mkRat 1 2000000000)))))
        (F.fin 0) (F.fin 0)).isFinite = true ∧
      Node.evaluateNode ratJsPrims
          (Node.simplifyNode ratJsPrims
            (Node.binary .add (Node.var .x) (Node.num (F.fin (mkRat 1 2000000000)))))
          (F.fin 0) (F.fin 0) ≠
        Node.evaluateNode ratJsPrims
          (Node.binary .add (Node.var .x) (Node.num (F.fin (mkRat 1 2000000000))))
          (F.fin 0) (F.fin 0) := by
  refine ⟨by decide, by decide, ?_⟩
  decide

/-- C2: simplification is idempotent — `simplify(simplify(n)) = simplify(n)`
structurally, for every node and every interpretation of the numeric
primitives. -/
theorem simplifyNode_idempotent (P : Prims) (n : Node) :
    Node.simplifyNode P (Node.simplifyNode P n) = Node.simplifyNode P n :=
  Node.isSimplified_fix P (Node.simplify_isSimplified P n)

/-! ## Symbolic integrator (integrator.js) -/

open Node

/-- `extractNumericConstant`: a numeric literal independent of both
variable symbols.  (A `Number` node never depends on a variable, so the
guard only rejects non-literal nodes — including constant expressions such
as `exp(1)` or `2*3`.) -/
def extractNumericConstant (n : Node) : Option F :=
  if !(dependsOn n .x) && !(dependsOn n .y) then
    match n with
    | .num v => some v
    | _ => none
  else none

/-- The `{a, b}` record of `matchLinearRecursive`. -/
structure LinForm where
  a : F
  b : Node
  deriving Repr, DecidableEq

/-- The `{a, b, node}` record of `matchLinear`. -/
structure LinMatch where
  a : F
  b : Node
  node : Node
  deriving Repr, DecidableEq

/-- `matchLinearRecursive` of integrator.js: structurally decompose a node
as `a*variable + b` walking `+`, `-`, unary negation, and `*`/`/` by
numeric constants; anything else fails. -/
def matchLinearRecursive (P : Prims) (v : VarName) : Node → Option LinForm
  | .num k => some ⟨F.fin 0, .num k⟩
  | .var name =>
    if name = v then some ⟨F.fin 1, .num (F.fin 0)⟩
    else some ⟨F.fin 0, .var name⟩
  | .neg a =>
    if dependsOn (Node.neg a) v = false then some ⟨F.fin 0, .neg a⟩
    else
      match matchLinearRecursive P v a with
      | none => none
      | some inner => some ⟨fneg inner.a, makeNeg P inner.b⟩
  | .fn name a =>
    if dependsOn (Node.fn name a) v = false then some ⟨F.fin 0, .fn name a⟩
    else none
  | .binary op l r =>
    if dependsOn (Node.binary op l r) v = false then
      some ⟨F.fin 0, .binary op l r⟩
    else
      match op with
      | .add =>
        match matchLinearRecursive P v l, matchLinearRecursive P v r with
        | some ll, some rl => some ⟨fadd ll.a rl.a, makeAdd P ll.b rl.b⟩
        | _, _ => none
      | .sub =>
        match matchLinearRecursive P v l, matchLinearRecursive P v r with
        | some ll, some rl => some ⟨fsub ll.a rl.a, makeSub P ll.b rl.b⟩
        | _, _ => none
      | .mul =>
        if isConstantWithRespectTo l v then
          match extractNumericConstant l with
          | none => none
          | some lc =>
            match matchLinearRecursive P v r with
            | none => none
            | some rl => some ⟨fmul rl.a lc, makeMul P (.num lc) rl.b⟩
        else if isConstantWithRespectTo r v then
          match extractNumericConstant r with
          | none => none
          | some rc =>
            match matchLinearRecursive P v l with
            | none => none
            | some ll => some ⟨fmul ll.a rc, makeMul P (.num rc) ll.b⟩
        else none
      | .div =>
        if isConstantWithRespectTo r v then
          match extractNumericConstant r with
          | none => none
          | some cv =>
            if cv.absLtTol then none
            else
              match matchLinearRecursive P v l with
              | none => none
              | some ll => some ⟨fdiv ll.a cv, makeDiv P ll.b (.num cv)⟩
        else none
      | .pow => none

/-- `matchLinear` of integrator.js: run the recursive matcher, collapse a
coefficient inside the `1e-9` zero band to `0`, and rebuild the simplified
witness node `a*v + b`. -/
def matchLinear (P : Prims) (v : VarName) (n : Node) : Option LinMatch :=
  match matchLinearRecursive P v n with
  | none => none
  | some result =>
    if result.a.absLtTol then
      some ⟨F.fin 0, result.b, simplifyNode P result.b⟩
    else
      some ⟨result.a, result.b,
        simplifyNode P (makeAdd P (makeMul P (.num result.a) (.var v)) result.b)⟩

/-- `integrateInternal` of integrator.js: the ordered antiderivative rule
set (constant rule, power rule, linearity, constant-multiple rule,
quotient rules, affine substitution for `exp`/`sin`/`cos`/`tan`).  `none`
is the failure value.  The `node.type === 'number'` branch of the source is
subsumed by the constant rule (a literal never depends on the variable) but
kept in source order via the first pattern. -/
def integrateInternal (P : Prims) (v : VarName) : Node → Option Node
  | .num k => some (makeMul P (.num k) (.var v))
  | .var name =>
    if name = v then
      some (makeMul P (.num (F.fin (mkRat 1 2)))
        (makePow P (.var v) (.num (F.fin 2))))
    else some (makeMul P (.var name) (.var v))
  | .neg a =>
    if dependsOn (Node.neg a) v = false then
      some (makeMul P (.neg a) (.var v))
    else
      match integrateInternal P v a with
      | none => none
      | some integrated => some (makeNeg P integrated)
  | .fn name a =>
    if dependsOn (Node.fn name a) v = false then
      some (makeMul P (.fn name a) (.var v))
    else
      match name with
      | .exp =>
        match matchLinear P v a with
        | some li =>
          if li.a ≠ F.fin 0 then
            some (makeMul P (.num (fdiv (F.fin 1) li.a)) (.fn .exp (cloneNode a)))
          else none
        | none => none
      | .sin =>
        match matchLinear P v a with
        | some li =>
          if li.a ≠ F.fin 0 then
            some (makeMul P (.num (fdiv (F.fin (mkRat (-1) 1)) li.a))
              (.fn .cos (cloneNode a)))
          else none
        | none => none
      | .cos =>
        match matchLinear P v a with
        | some li =>
          if li.a ≠ F.fin 0 then
            some (makeMul P (.num (fdiv (F.fin 1) li.a)) (.fn .sin (cloneNode a)))
          else none
        | none => none
      | .tan =>
        match matchLinear P v a with
        | some li =>
          if li.a ≠ F.fin 0 then
            some (makeMul P (.num (fdiv (F.fin (mkRat (-1) 1)) li.a))
              (.fn .ln (.fn .abs (.fn .cos (cloneNode a)))))
          else none
        | none => none
      | .ln =>
        if (matchLinear P v a).isSome && dependsOn a v = false then
          some (makeMul P (.fn .ln a) (.var v))
        else none
      | .log =>
        if (matchLinear P v a).isSome && dependsOn a v = false then
          some (makeMul P (.fn .log a) (.var v))
        else none
      | _ => none
  | .binary op l r =>
    if dependsOn (Node.binary op l r) v = false then
      some (makeMul P (.binary op l r) (.var v))
    else
      match op with
      | .add =>
        match integrateInternal P v l, integrateInternal P v r with
        | some li, some ri => some (makeAdd P li ri)
        | _, _ => none
      | .sub =>
        match integrateInternal P v l, integrateInternal P v r with
        | some li, some ri => some (makeSub P li ri)
        | _, _ => none
      | .mul =>
        if isConstantWithRespectTo l v then
          match integrateInternal P v r with
          | none => none
          | some ri => some (makeMul P l ri)
        else if isConstantWithRespectTo r v then
          match integrateInternal P v l with
          | none => none
          | some li => some (makeMul P r li)
        else none
      | .div =>
        if dependsOn r v = false && dependsOn l v then
          match integrateInternal P v l with
          | none => none
          | some integral => some (makeDiv P integral r)
        else if dependsOn l v = false && dependsOn r v then
          match extractNumericConstant l with
          | none => none
          | some numeratorValue =>
            match matchLinear P v r with
            | some li =>
              if li.a ≠ F.fin 0 then
                some (makeMul P (.num (fdiv numeratorValue li.a))
                  (.fn .ln (.fn .abs li.node)))
              else if isVariableNode r v && numeratorValue.absPos then
                some (makeMul P (.num numeratorValue)
                  (.fn .ln (.fn .abs (.var v))))
              else none
            | none =>
              if isVariableNode r v && numeratorValue.absPos then
                some (makeMul P (.num numeratorValue)
                  (.fn .ln (.fn .abs (.var v))))
              else none
        else none
      | .pow =>
        if isVariableNode l v then
          match r with
          | .num power =>
            if (fadd power (F.fin 1)).absLtTol then
              some (.fn .ln (.fn .abs (.var v)))
            else
              some (makeMul P (.num (fdiv (F.fin 1) (fadd power (F.fin 1))))
                (makePow P (.var v) (.num (fadd power (F.fin 1)))))
          | _ => none
        else none

/-- `integrate` of integrator.js: re-simplify a successful result. -/
def integrate (P : Prims) (n : Node) (v : VarName) : Option Node :=
  match integrateInternal P v n with
  | none => none
  | some result => some (simplifyNode P result)

/-! ## Lexer and parser (parser.js) -/

/-- Operator tokens (`OP_INFO` keys, unary minus as `uminus`). -/
inductive OpTok where
  | add | sub | mul | div | pow | uminus
  deriving DecidableEq, Repr

/-- Token stream elements.  (`tvar`/`tfn` avoid Lean keywords.) -/
inductive Token where
  | number (value : F)
  | tvar (name : VarName)
  | tfn (name : FuncName)
  | comma
  | lparen
  | rparen
  | op (o : OpTok)
  deriving DecidableEq, Repr

/-- `OP_INFO` precedence. -/
def opPrec : OpTok → ℕ
  | .add => 1
  | .sub => 1
  | .mul => 2
  | .div => 2
  | .pow => 3
  | .uminus => 4

/-- `OP_INFO` associativity (`true` = right-associative). -/
def opRightAssoc : OpTok → Bool
  | .pow => true
  | .uminus => true
  | _ => false

/-- `OP_INFO` arity. -/
def opArgs : OpTok → ℕ
  | .uminus => 1
  | _ => 2

/-- Lexer `prevType` state, controlling the unary-minus rule. -/
inductive PrevType where
  | start | number | function | variable | comma | lparen | rparen | operator
  deriving DecidableEq, Repr

lemma dropWhile_length_le {α : Type} (p : α → Bool) (l : List α) :
    (l.dropWhile p).length ≤ l.length := by
  induction l with
  | nil => simp [List.dropWhile]
  | cons hd tl ih =>
    by_cases hp : p hd = true
    · rw [List.dropWhile_cons_of_pos hp]
      exact le_trans ih (by simp)
    · rw [List.dropWhile_cons_of_neg (by simpa using hp)]

/-- Whitespace skipped by the lexer (and collapsed by the solver's input
cleaning). -/
def isWs (c : Char) : Bool := c = ' ' || c = '\t' || c = '\n'

/-- `[0-9.]`. -/
def isNumChar (c : Char) : Bool := ('0' ≤ c && c ≤ '9') || c = '.'

/-- `[a-zA-Z_]`. -/
def isIdentStart (c : Char) : Bool :=
  ('a' ≤ c && c ≤ 'z') || ('A' ≤ c && c ≤ 'Z') || c = '_'

/-- `[a-zA-Z0-9_]`. -/
def isIdentChar (c : Char) : Bool := isIdentStart c || ('0' ≤ c && c ≤ '9')

/-- `toLowerCase` on an ASCII identifier character. -/
def lowerChar (c : Char) : Char :=
  if 'A' ≤ c && c ≤ 'Z' then Char.ofNat (c.toNat + 32) else c

/-- The value of a digit run (most significant first). -/
def digitsToNat (ds : List Char) : ℕ :=
  ds.foldl (fun acc c => 10 * acc + (c.toNat - 48)) 0

/-- `parseFloat` on a `[0-9.]+` run with at most one dot: integer and
fractional part; a bare `.` (no digits at all) is `NaN`, as in JS. -/
def parseNumber (cs : List Char) : F :=
  let intPart := cs.takeWhile (· ≠ '.')
  let rest := cs.dropWhile (· ≠ '.')
  let fracPart := rest.drop 1
  if intPart = [] ∧ fracPart = [] then F.nan
  else
    F.fin (mkRat
      (digitsToNat intPart * 10 ^ fracPart.length + digitsToNat fracPart)
      (10 ^ fracPart.length))

/-- The exact float64 value of `Math.PI`. -/
def piFloat : ℚ := mkRat 884279719003555 281474976710656

/-- The exact float64 value of `Math.E`. -/
def eFloat : ℚ := mkRat 6121026514868073 2251799813685248

/-- `CONSTANTS` lookup (case-insensitive identifiers, already lowered). -/
def constantOfId : String → Option ℚ
  | "pi" => some piFloat
  | "e" => some eFloat
  | _ => none

/-- `FUNCTIONS` lookup (already lowered). -/
def funcOfId : String → Option FuncName
  | "sin" => some .sin
  | "cos" => some .cos
  | "tan" => some .tan
  | "cot" => some .cot
  | "sec" => some .sec
  | "csc" => some .csc
  | "exp" => some .exp
  | "ln" => some .ln
  | "log" => some .log
  | "sqrt" => some .sqrt
  | "abs" => some .abs
  | _ => none

/-- `tokenize` of parser.js: one token per step, whitespace skipped,
numeric runs with at most one dot, case-insensitive identifiers resolved
to constants / functions / the two variables, and `-` lexed as unary
negation after start-of-input, an operator, `(` or `,`. -/
def tokenizeGo : ℕ → List Char → PrevType → Except String (List Token)
  | 0, _, _ => .error "lexer fuel exhausted"
  | _, [], _ => .ok []
  | fuel + 1, c :: rest, prev =>
    if isWs c then tokenizeGo fuel rest prev
    else if isNumChar c then
      let numChars := c :: rest.takeWhile isNumChar
      let rest' := rest.dropWhile isNumChar
      if 2 ≤ numChars.count '.' then .error "invalid number"
      else
        match tokenizeGo fuel rest' PrevType.number with
        | .error m => .error m
        | .ok toks => .ok (Token.number (parseNumber numChars) :: toks)
    else if isIdentStart c then
      let idChars := c :: rest.takeWhile isIdentChar
      let rest' := rest.dropWhile isIdentChar
      let lower := String.mk (idChars.map lowerChar)
      match constantOfId lower with
      | some q =>
        match tokenizeGo fuel rest' PrevType.number with
        | .error m => .error m
        | .ok toks => .ok (Token.number (F.fin q) :: toks)
      | none =>
        match funcOfId lower with
        | some f =>
          match tokenizeGo fuel rest' PrevType.function with
          | .error m => .error m
          | .ok toks => .ok (Token.tfn f :: toks)
        | none =>
          if lower = "x" then
            match tokenizeGo fuel rest' PrevType.variable with
            | .error m => .error m
            | .ok toks => .ok (Token.tvar .x :: toks)
          else if lower = "y" then
            match tokenizeGo fuel rest' PrevType.variable with
            | .error m => .error m
            | .ok toks => .ok (Token.tvar .y :: toks)
          else .error ("unknown identifier: " ++ lower)
    else if c = ',' then
      match tokenizeGo fuel rest PrevType.comma with
      | .error m => .error m
      | .ok toks => .ok (Token.comma :: toks)
    else if c = '(' then
      match tokenizeGo fuel rest PrevType.lparen with
      | .error m => .error m
      | .ok toks => .ok (Token.lparen :: toks)
    else if c = ')' then
      match tokenizeGo fuel rest PrevType.rparen with
      | .error m => .error m
      | .ok toks => .ok (Token.rparen :: toks)
    else if c = '+' || c = '-' || c = '*' || c = '/' || c = '^' then
      let o : OpTok :=
        if c = '-' &&
            (prev = PrevType.start || prev = PrevType.operator ||
              prev = PrevType.lparen || prev = PrevType.comma) then
          .uminus
        else if c = '+' then .add
        else if c = '-' then .sub
        else if c = '*' then .mul
        else if c = '/' then .div
        else .pow
      match tokenizeGo fuel rest PrevType.operator with
      | .error m => .error m
      | .ok toks => .ok (Token.op o :: toks)
    else .error ("invalid character: " ++ String.mk [c])

/-- `tokenize` entry point: one fuel unit per character is always enough
since each step consumes at least one character. -/
def tokenize (cs : List Char) (prev : PrevType) : Except String (List Token) :=
  tokenizeGo (cs.length + 1) cs prev

/-- The operator-popping loop of `toRPN`: pop functions, and operators
that win by precedence/associativity against the incoming operator.
Returns the popped tokens (in pop order) and the remaining stack. -/
def popOps (o1 : OpTok) : List Token → (List Token × List Token)
  | [] => ([], [])
  | t :: rest =>
    match t with
    | .tfn f =>
      let (p, s) := popOps o1 rest
      (Token.tfn f :: p, s)
    | .op o2 =>
      if (!opRightAssoc o1 && opPrec o1 ≤ opPrec o2) ||
          (opRightAssoc o1 && opPrec o1 < opPrec o2) then
        let (p, s) := popOps o1 rest
        (Token.op o2 :: p, s)
      else ([], t :: rest)
    | _ => ([], t :: rest)

/-- Pop up to (but not including) the matching `(` — for the comma case;
`none` when no `(` is on the stack. -/
def popToLParenKeep : List Token → Option (List Token × List Token)
  | [] => none
  | Token.lparen :: rest => some ([], Token.lparen :: rest)
  | t :: rest =>
    match popToLParenKeep rest with
    | none => none
    | some (p, s) => some (t :: p, s)

/-- Pop up to and including the matching `(` — for the `)` case;
`none` when no `(` is on the stack. -/
def popToLParenDrop : List Token → Option (List Token × List Token)
  | [] => none
  | Token.lparen :: rest => some ([], rest)
  | t :: rest =>
    match popToLParenDrop rest with
    | none => none
    | some (p, s) => some (t :: p, s)

/-- `toRPN` of parser.js: shunting-yard over the token list, producing a
postfix token list.  The stack's head is its top. -/
def toRPNGo : List Token → List Token → List Token → Except String (List Token)
  | [], output, stack =>
    if stack.any (fun t => t = Token.lparen || t = Token.rparen) then
      .error "mismatched parentheses"
    else .ok (output ++ stack)
  | tok :: rest, output, stack =>
    match tok with
    | .number v => toRPNGo rest (output ++ [Token.number v]) stack
    | .tvar n => toRPNGo rest (output ++ [Token.tvar n]) stack
    | .tfn f => toRPNGo rest output (Token.tfn f :: stack)
    | .comma =>
      match popToLParenKeep stack with
      | none => .error "mismatched parentheses"
      | some (popped, stack') => toRPNGo rest (output ++ popped) stack'
    | .op o =>
      let (popped, stack') := popOps o stack
      toRPNGo rest (output ++ popped) (Token.op o :: stack')
    | .lparen => toRPNGo rest output (Token.lparen :: stack)
    | .rparen =>
      match popToLParenDrop stack with
      | none => .error "mismatched parentheses"
      | some (popped, stack') =>
        match stack' with
        | Token.tfn f :: stack'' =>
          toRPNGo rest (output ++ popped ++ [Token.tfn f]) stack''
        | _ => toRPNGo rest (output ++ popped) stack'

/-- `toRPN`. -/
def toRPN (tokens : List Token) : Except String (List Token) :=
  toRPNGo tokens [] []

/-- `buildAST` of parser.js: reduce the postfix stream with a node stack;
arity underflow and a final stack size other than one are fatal; the
result is simplified once. -/
def buildASTGo (P : Prims) : List Token → List Node → Except String Node
  | [], stack =>
    match stack with
    | [n] => .ok (simplifyNode P n)
    | _ => .error "invalid equation structure"
  | tok :: rest, stack =>
    match tok with
    | .number v => buildASTGo P rest (Node.num v :: stack)
    | .tvar n => buildASTGo P rest (Node.var n :: stack)
    | .tfn f =>
      match stack with
      | arg :: stack' => buildASTGo P rest (Node.fn f arg :: stack')
      | [] => .error "function without argument"
    | .op .uminus =>
      match stack with
      | arg :: stack' => buildASTGo P rest (Node.neg arg :: stack')
      | [] => .error "unary operator lacks an argument"
    | .op .add =>
      match stack with
      | r :: l :: stack' => buildASTGo P rest (Node.binary .add l r :: stack')
      | _ => .error "binary operator lacks arguments"
    | .op .sub =>
      match stack with
      | r :: l :: stack' => buildASTGo P rest (Node.binary .sub l r :: stack')
      | _ => .error "binary operator lacks arguments"
    | .op .mul =>
      match stack with
      | r :: l :: stack' => buildASTGo P rest (Node.binary .mul l r :: stack')
      | _ => .error "binary operator lacks arguments"
    | .op .div =>
      match stack with
      | r :: l :: stack' => buildASTGo P rest (Node.binary .div l r :: stack')
      | _ => .error "binary operator lacks arguments"
    | .op .pow =>
      match stack with
      | r :: l :: stack' => buildASTGo P rest (Node.binary .pow l r :: stack')
      | _ => .error "binary operator lacks arguments"
    | _ => .error "unknown token while building the AST"

/-- `parseExpression` of parser.js: sanitise the Unicode minus, tokenize,
convert to postfix, build and simplify the AST.  Empty/blank input is a
parse error. -/
def parseExpression (P : Prims) (input : String) : Except String Node :=
  if input.toList.all isWs then .error "empty expression"
  else
    let sanitized := input.toList.map (fun c => if c = '−' then '-' else c)
    match tokenize sanitized PrevType.start with
    | .error m => .error m
    | .ok tokens =>
      match toRPN tokens with
      | .error m => .error m
      | .ok rpn => buildASTGo P rpn []

/-! ## ODE classifier and solver (solver.js) -/

/-- Result status of `processEquation`. -/
inductive Status where
  | ok | unsupported | error
  deriving DecidableEq, Repr

/-- One derivation-step descriptor (localised wording abstracted to short
English placeholders; the equation fragments are the exact renderings). -/
structure Step where
  title : String
  description : String
  equationLine : Option String
  deriving DecidableEq, Repr

/-- The result object of `processEquation`. -/
structure SolveResult where
  status : Status
  message : Option String := none
  classification : Option String := none
  normalizedEquation : Option String := none
  hint : Option String := none
  steps : List Step := []
  finalSolution : Option String := none
  rhsNode : Option Node := none
  deriving DecidableEq, Repr

/-- The `{rhs, normalizedEquation}` record of `parseDifferentialEquation`. -/
structure ParsedEquation where
  rhs : Node
  normalizedEquation : String
  deriving DecidableEq, Repr

/-- Collapse every whitespace run to a single space
(`replace(/\s+/g, ' ')`); the flag records whether the previous character
was part of a run already collapsed. -/
def collapseWsGo : List Char → Bool → List Char
  | [], _ => []
  | c :: rest, lastWs =>
    if isWs c then
      if lastWs then collapseWsGo rest true
      else ' ' :: collapseWsGo rest true
    else c :: collapseWsGo rest false

/-- `replace(/\s+/g, ' ')`. -/
def collapseWs (cs : List Char) : List Char := collapseWsGo cs false

/-- Strip leading and trailing spaces (the cleaned input only contains
`' '` as whitespace). -/
def trimChars (cs : List Char) : List Char :=
  ((cs.dropWhile isWs).reverse.dropWhile isWs).reverse

/-- Split on a character (the JS `String.split`). -/
def splitOnChar (sep : Char) : List Char → List (List Char)
  | [] => [[]]
  | c :: rest =>
    let parts := splitOnChar sep rest
    if c = sep then [] :: parts
    else
      match parts with
      | [] => [[c]]
      | p :: ps => (c :: p) :: ps

/-- `parseDifferentialEquation` of solver.js: clean the input, require an
`=`, require the left side to be exactly `dy/dx` (case/space insensitive),
parse the right side.  Only the first two `=`-separated parts are used, as
in the source's destructuring. -/
def parseDifferentialEquation (P : Prims) (rawInput : String) :
    Except String ParsedEquation :=
  let cleaned := trimChars ((collapseWs rawInput.toList).map
    (fun c => if c = '،' then ',' else c))
  if !cleaned.contains '=' then
    .error "the equation must contain an = sign"
  else
    let parts := (splitOnChar '=' cleaned).map trimChars
    let lhsRaw := parts.headD []
    let rhsRaw := (parts.drop 1).headD []
    let lhsNormalized := String.mk ((lhsRaw.filter (fun c => !isWs c)).map lowerChar)
    if lhsNormalized ≠ "dy/dx" then
      .error "the left side of the equation must be dy/dx"
    else
      match parseExpression P (String.mk rhsRaw) with
      | .error m => .error m
      | .ok rhsAst =>
        .ok ⟨rhsAst, "dy/dx = " ++ nodeToString rhsAst⟩

/-- The classification variant of `classifyEquation`. -/
inductive Classification where
  | direct (rhs : Node)
  | separable (rhs : Node) (xPart yPart : Node)
  | linear (rhs : Node) (aNode bNode : Node)
  | unsupported (rhs : Node)
  deriving DecidableEq, Repr

/-- `productOf`: fold a non-empty list with `makeMul`, empty list is `1`. -/
def productOf (P : Prims) : List Node → Node
  | [] => Node.num (F.fin 1)
  | n :: rest => rest.foldl (fun acc node => makeMul P acc node) n

/-- `sumNodes`: fold a non-empty list with `makeAdd`, empty list is `0`. -/
def sumNodes (P : Prims) : List Node → Node
  | [] => Node.num (F.fin 0)
  | n :: rest => rest.foldl (fun acc node => makeAdd P acc node) n

/-- `buildProduct`: numerator product divided by each denominator factor,
then simplified. -/
def buildProduct (P : Prims) (numeratorNodes denominatorNodes : List Node) : Node :=
  simplifyNode P
    (denominatorNodes.foldl (fun acc den => makeDiv P acc den)
      (productOf P numeratorNodes))

/-- The factor-partition loop of `detectSeparable`: numerator/denominator
factor lists for `x`-dependent, `y`-dependent and constant factors;
`none` when a factor depends on both variables. -/
def sepPartition :
    List (Node × Bool) →
      Option (List Node × List Node × List Node × List Node × List Node × List Node)
  | [] => some ([], [], [], [], [], [])
  | (node, inDen) :: rest =>
    let hasX := dependsOn node .x
    let hasY := dependsOn node .y
    if hasX && hasY then none
    else
      match sepPartition rest with
      | none => none
      | some (xN, xD, yN, yD, cN, cD) =>
        if hasY then
          if inDen then some (xN, xD, yN, node :: yD, cN, cD)
          else some (xN, xD, node :: yN, yD, cN, cD)
        else if hasX then
          if inDen then some (xN, node :: xD, yN, yD, cN, cD)
          else some (node :: xN, xD, yN, yD, cN, cD)
        else
          if inDen then some (xN, xD, yN, yD, cN, node :: cD)
          else some (xN, xD, yN, yD, node :: cN, cD)

/-- `detectSeparable` of solver.js. -/
def detectSeparable (P : Prims) (rhs : Node) : Option (Node × Node) :=
  match sepPartition (flattenProduct rhs) with
  | none => none
  | some (xNum, xDen, yNum, yDen, cNum, cDen) =>
    if yNum = [] ∧ yDen = [] then none
    else
      let xPart := buildProduct P (xNum ++ cNum) (xDen ++ cDen)
      let yPart := buildProduct P yNum yDen
      if dependsOn yPart .y = false then none
      else some (xPart, yPart)

/-- The factor loop of `extractLinearCoefficient`: collect numerator and
denominator factors and count bare first-power occurrences of `y`. -/
def elcFactors (P : Prims) :
    List (Node × Bool) → Option (List Node × List Node × ℕ)
  | [] => some ([], [], 0)
  | (node, inDen) :: rest =>
    if inDen then
      if dependsOn node .y then none
      else
        match elcFactors P rest with
        | none => none
        | some (n, d, c) => some (n, node :: d, c)
    else if isVariableNode node .y then
      match elcFactors P rest with
      | none => none
      | some (n, d, c) => some (n, d, c + 1)
    else
      match node with
      | .binary .pow (Node.var VarName.y) (.num pv) =>
        if (fsub pv (F.fin 1)).absLtTol then
          match elcFactors P rest with
          | none => none
          | some (n, d, c) => some (n, d, c + 1)
        else none
      | _ =>
        if dependsOn node .y then none
        else
          match elcFactors P rest with
          | none => none
          | some (n, d, c) => some (node :: n, d, c)

/-- `extractLinearCoefficient` of solver.js: the term must contain `y`
exactly once, as a bare factor (or `y^1` within tolerance), never in a
denominator or inside a function; the remaining factors form the
coefficient. -/
def extractLinearCoefficient (P : Prims) (term : Node) : Option Node :=
  match elcFactors P (flattenProduct term) with
  | none => none
  | some (numerator, denominator, yCount) =>
    if yCount ≠ 1 then none
    else some (buildProduct P numerator denominator)

/-- The term loop of `detectLinear`: coefficients of `y`-dependent terms
and the free terms. -/
def linSplit (P : Prims) : List Node → Option (List Node × List Node)
  | [] => some ([], [])
  | t :: rest =>
    if dependsOn t .y then
      match extractLinearCoefficient P t with
      | none => none
      | some coeff =>
        match linSplit P rest with
        | none => none
        | some (cs, fs) => some (coeff :: cs, fs)
    else
      match linSplit P rest with
      | none => none
      | some (cs, fs) => some (cs, t :: fs)

/-- `detectLinear` of solver.js: `rhs = aNode*y + bNode` with `aNode`,
`bNode` independent of `y`. -/
def detectLinear (P : Prims) (rhs : Node) : Option (Node × Node) :=
  match linSplit P (flattenSum P rhs) with
  | none => none
  | some (coefficientTerms, freeTerms) =>
    if coefficientTerms = [] then none
    else
      let aNode := simplifyNode P (sumNodes P coefficientTerms)
      let bNode := simplifyNode P (sumNodes P freeTerms)
      if dependsOn aNode .y || dependsOn bNode .y then none
      else some (aNode, bNode)

/-- `classifyEquation` of solver.js. -/
def classifyEquation (P : Prims) (rhs : Node) : Classification :=
  if dependsOn rhs .y = false then .direct rhs
  else
    match detectSeparable P rhs with
    | some (xp, yp) => .separable rhs xp yp
    | none =>
      match detectLinear P rhs with
      | some (a, b) => .linear rhs a b
      | none => .unsupported rhs

/-- `buildDirectSolution` of solver.js (throws when the right-hand side is
not integrable by the rule set — surfaced by `processEquation` as an
error status). -/
def buildDirectSolution (P : Prims) (normalized : String) (rhs : Node) :
    Except String SolveResult :=
  match integrate P rhs .x with
  | none => .error "the right-hand side integral is not easily computable"
  | some integral =>
    let rhsText := nodeToString rhs
    let integralText := nodeToString integral
    .ok
      { status := .ok
        classification := some "direct"
        normalizedEquation := some normalized
        hint := some "the equation depends only on x, solve by direct integration"
        steps :=
          [⟨"Step 1: identify the structure",
            "the right-hand side is a function of x only", none⟩,
           ⟨"Step 2: integrate both sides",
            "the left integral is y, the right one the integral of the x function",
            some ("∫ dy = ∫ (" ++ rhsText ++ ") dx")⟩,
           ⟨"Step 3: obtain the final answer",
            "carrying out the integration gives the general solution",
            some ("y(x) = " ++ integralText ++ " + C")⟩]
        finalSolution := some ("y(x) = " ++ integralText ++ " + C")
        rhsNode := some rhs }

/-- `deriveExplicitFromSeparable` of solver.js: when the left integral is
exactly `ln(abs(y))`, produce the explicit exponential form. -/
def deriveExplicitFromSeparable (leftIntegral rightIntegral : Node) :
    Option String :=
  match leftIntegral with
  | .fn .ln (.fn .abs (Node.var VarName.y)) =>
    some ("y = C · exp(" ++ nodeToString rightIntegral ++ ")")
  | _ => none

/-- `buildSeparableSolution` of solver.js. -/
def buildSeparableSolution (P : Prims) (normalized : String)
    (rhs xPart yPart : Node) : Except String SolveResult :=
  let xText := nodeToString xPart
  let yText := nodeToString yPart
  let leftIntegrand := simplifyNode P (makeDiv P (.num (F.fin 1)) yPart)
  let rightIntegrand := simplifyNode P xPart
  match integrate P leftIntegrand .y, integrate P rightIntegrand .x with
  | some leftIntegral, some rightIntegral =>
    let leftText := nodeToString leftIntegral
    let rightText := nodeToString rightIntegral
    let implicitSolution := leftText ++ " = " ++ rightText ++ " + C"
    let explicit := deriveExplicitFromSeparable leftIntegral rightIntegral
    let baseSteps :=
      [⟨"Step 1: recognise separability",
        "the equation is a product of a function of x and a function of y",
        none⟩,
       ⟨"Step 2: separate the variables",
        "divide so that each side involves a single variable",
        some ("1/(" ++ yText ++ ") dy = (" ++ xText ++ ") dx")⟩,
       ⟨"Step 3: integrate both sides",
        "integrate each side to relate x and y",
        some ("∫ 1/(" ++ yText ++ ") dy = ∫ (" ++ xText ++ ") dx")⟩,
       (⟨"Step 4: general answer",
        "the result in implicit form, simplified to explicit when possible",
        some implicitSolution⟩ : Step)]
    let steps :=
      match explicit with
      | some e =>
        baseSteps ++
          [⟨"Step 5: explicit answer",
            "simplifying the logarithm gives the explicit form", some e⟩]
      | none => baseSteps
    .ok
      { status := .ok
        classification := some "separable"
        normalizedEquation := some normalized
        hint := some "the equation is separable"
        steps := steps
        finalSolution := some (explicit.getD implicitSolution)
        rhsNode := some rhs }
  | _, _ => .error "the integrals needed for the separable solution were unavailable"

/-- `buildLinearSolution` of solver.js: standard-form first-order linear
solution through the integrating factor; when `∫ μQ dx` is not found the
result is the implicit fallback form, still with status `ok`. -/
def buildLinearSolution (P : Prims) (normalized : String)
    (rhs aNode bNode : Node) : Except String SolveResult :=
  let pNode := simplifyNode P (makeNeg P aNode)
  let qNode := simplifyNode P bNode
  let pText := nodeToString pNode
  let qText := nodeToString qNode
  match integrate P pNode .x with
  | none => .error "the integral of P(x) was not easily computable"
  | some integralP =>
    let muNode := simplifyNode P (.fn .exp (cloneNode integralP))
    let muText := nodeToString muNode
    let integralPText := nodeToString integralP
    let muQNode := simplifyNode P (makeMul P muNode qNode)
    let integralMuQ := integrate P muQNode .x
    let muQText := nodeToString muQNode
    let finalExpression :=
      match integralMuQ with
      | some imq => "y(x) = (" ++ nodeToString imq ++ " + C) / " ++ muText
      | none => "y(x) = (1/" ++ muText ++ ") * (∫ (" ++ muQText ++ ") dx + C)"
    let baseSteps :=
      [⟨"Step 1: recognise the first-order linear form",
        "rewrite the equation as dy/dx + P(x) y = Q(x)", none⟩,
       ⟨"Step 2: determine P(x) and Q(x)",
        "the negated y coefficient is P(x), the rest is Q(x)",
        some ("P(x) = " ++ pText ++ "   ,   Q(x) = " ++ qText)⟩,
       ⟨"Step 3: compute the integrating factor",
        "mu(x) = exp(integral of P)",
        some ("μ(x) = exp(" ++ integralPText ++ ") = " ++ muText)⟩,
       ⟨"Step 4: multiply through by μ(x)",
        "the left side becomes the derivative of μ(x)·y",
        some ("d/dx [μ(x) · y] = μ(x) · Q(x) = " ++ muQText)⟩,
       (⟨"Step 5: final integration",
        "integrate both sides with respect to x",
        some ("μ(x) · y = ∫ (" ++ muQText ++ ") dx + C")⟩ : Step)]
    let steps :=
      match integralMuQ with
      | some _ =>
        baseSteps ++
          [⟨"Step 6: final answer",
            "divide by μ(x) to obtain the answer", some finalExpression⟩]
      | none =>
        baseSteps ++
          [⟨"Step 6: general form of the answer",
            "keep the answer general when the integral is not simple",
            some finalExpression⟩]
    .ok
      { status := .ok
        classification := some "linear"
        normalizedEquation := some normalized
        hint := some "the equation is first-order linear"
        steps := steps
        finalSolution := some finalExpression
        rhsNode := some rhs }

/-- `processEquation` of solver.js: parse, classify, build; every thrown
error is caught and becomes an `error`-status result, an unmatched
classification becomes the distinct `unsupported` status. -/
def processEquation (P : Prims) (rawInput : String) : SolveResult :=
  let run : Except String SolveResult :=
    match parseDifferentialEquation P rawInput with
    | .error m => .error m
    | .ok parsed =>
      match classifyEquation P parsed.rhs with
      | .direct rhs => buildDirectSolution P parsed.normalizedEquation rhs
      | .separable rhs xp yp =>
        buildSeparableSolution P parsed.normalizedEquation rhs xp yp
      | .linear rhs a b =>
        buildLinearSolution P parsed.normalizedEquation rhs a b
      | .unsupported _ =>
        .ok { status := .unsupported, message := some "this equation is not supported yet" }
  match run with
  | .ok r => r
  | .error m => { status := .error, message := some m }

/-- `createDerivativeEvaluator` of solver.js: evaluate the AST with both
variables bound, mapping any non-finite value to `NaN`.  The source's
`try`/`catch` guards the undefined-variable and unknown-operator throws of
`evaluateNode`, which cannot occur for the closed AST with both symbols
bound, so the model needs no exception case. -/
def createDerivativeEvaluator (P : Prims) (rhsNode : Node) : F → F → F :=
  fun x y =>
    let value := evaluateNode P rhsNode x y
    if value.isFinite then value else F.nan

/-! ## Numeric trajectory sampler (the chart module) -/

/-- `safeEval`: a non-finite slope evaluates as zero so stepping cannot
crash. -/
def safeEval (f : F → F → F) (x y : F) : F :=
  let value := f x y
  if value.isFinite then value else F.fin 0

/-- `rungeKuttaStep`: one classical RK4 step; a non-finite updated value
is reported as `NaN`. -/
def rungeKuttaStep (f : F → F → F) (x y h : F) : F × F :=
  let k1 := safeEval f x y
  let k2 := safeEval f (fadd x (fdiv h (F.fin 2))) (fadd y (fdiv (fmul h k1) (F.fin 2)))
  let k3 := safeEval f (fadd x (fdiv h (F.fin 2))) (fadd y (fdiv (fmul h k2) (F.fin 2)))
  let k4 := safeEval f (fadd x h) (fadd y (fmul h k3))
  let nextY := fadd y (fmul (fdiv h (F.fin 6))
    (fadd (fadd (fadd k1 (fmul (F.fin 2) k2)) (fmul (F.fin 2) k3)) k4))
  let nextX := fadd x h
  if nextY.isFinite then (nextX, nextY) else (nextX, F.nan)

/-- The stepping loop of `integrateDirection`: step while the updated
value stays finite, at most `steps` times. -/
def integrateGo (f : F → F → F) (x y h : F) : ℕ → List (F × F)
  | 0 => []
  | steps + 1 =>
    let next := rungeKuttaStep f x y h
    if next.2.isFinite then (next.1, next.2) :: integrateGo f next.1 next.2 h steps
    else []

/-- `integrateDirection` of the chart module: step size
`h = (span/steps) * direction`. -/
def integrateDirection (f : F → F → F) (x0 y0 span : F) (steps : ℕ)
    (direction : F) : List (F × F) :=
  integrateGo f x0 y0 (fmul (fdiv span (F.fin (mkRat steps 1))) direction) steps

/-- The point-sequence assembly of `renderSolutionChart` (lines 15-18):
160 steps in each direction, the backward run reversed and concatenated
around the initial point. -/
def samplePoints (f : F → F → F) (x0 y0 span : F) : List (F × F) :=
  let forwardPoints := integrateDirection f x0 y0 span 160 (F.fin 1)
  let backwardPoints := integrateDirection f x0 y0 span 160 (F.fin (mkRat (-1) 1))
  backwardPoints.reverse ++ (x0, y0) :: forwardPoints

/-! ## Claim C8 -/

/-- C8: the evaluator returned by `createDerivativeEvaluator` never throws
(it is a total function of the closed AST with both variables bound); it
returns a finite value or `NaN`, and it returns `NaN` exactly when the
underlying `evaluateNode` produces a non-finite value (the throwing cases
of the source — unbound variable, unknown operator — are unreachable for
the closed AST with both symbols bound). -/
theorem createDerivativeEvaluator_fails_closed (P : Prims) (n : Node) (x y : F) :
    ((createDerivativeEvaluator P n x y).isFinite = true ∨
      createDerivativeEvaluator P n x y = F.nan) ∧
    (createDerivativeEvaluator P n x y = F.nan ↔
      (Node.evaluateNode P n x y).isFinite = false) ∧
    ((Node.evaluateNode P n x y).isFinite = true →
      createDerivativeEvaluator P n x y = Node.evaluateNode P n x y) := by
  cases hv : Node.evaluateNode P n x y <;>
    simp [createDerivativeEvaluator, hv, F.isFinite]

/-- Witness for C8 at `n = x / y`, `x = 1`, `y = 0` (division by zero:
the underlying evaluation is `Infinity`, the evaluator yields `NaN`). -/
theorem createDerivativeEvaluator_fails_closed_witness :
    createDerivativeEvaluator ratJsPrims
        (Node.binary .div (Node.var .x) (Node.var .y)) (F.fin 1) (F.fin 0) =
      F.nan :=
  ((createDerivativeEvaluator_fails_closed ratJsPrims
    (Node.binary .div (Node.var .x) (Node.var .y)) (F.fin 1) (F.fin 0)).2.1).mpr
    (by decide)

/-! ## Claims C5, C6, C7 -/

lemma fmul_two_half (p : F) :
    fmul (F.fin 2) (fmul (F.fin (mkRat 1 2)) p) = p := by
  have h2 : (mkRat 1 2 : ℚ) = 1 / 2 := by
    rw [Rat.mkRat_eq_div]
    norm_num
  cases p with
  | fin r =>
    simp only [fmul, qmul_eq, h2]
    norm_num
    ring
  | inf => norm_num [fmul, h2]
  | ninf => norm_num [fmul, h2]
  | nan => simp [fmul]

/-- C5: `dy/dx = 2*x` parses, classifies as `direct`, and returns status
`ok` with final text `y(x) = 2 * 0.5 * x ^ 2 + C`; the integral node
`2 * (0.5 * x^2)` produced for the right-hand side evaluates identically
to `x ^ 2` at every input (for every interpretation of the primitives),
so the final solution is value-equivalent to `y(x) = x^2 + C`. -/
theorem processEquation_direct_2x (P : Prims) :
    (processEquation P "dy/dx = 2*x").status = .ok ∧
    (processEquation P "dy/dx = 2*x").classification = some "direct" ∧
    (processEquation P "dy/dx = 2*x").rhsNode =
      some (.binary .mul (.num (F.fin 2)) (.var .x)) ∧
    (processEquation P "dy/dx = 2*x").finalSolution =
      some "y(x) = 2 * 0.5 * x ^ 2 + C" ∧
    integrate P (.binary .mul (.num (F.fin 2)) (.var .x)) .x =
      some (.binary .mul (.num (F.fin 2))
        (.binary .mul (.num (F.fin (mkRat 1 2)))
          (.binary .pow (.var .x) (.num (F.fin 2))))) ∧
    ∀ x y : F,
      Node.evaluateNode P
        (.binary .mul (.num (F.fin 2))
          (.binary .mul (.num (F.fin (mkRat 1 2)))
            (.binary .pow (.var .x) (.num (F.fin 2))))) x y =
      Node.evaluateNode P (.binary .pow (.var .x) (.num (F.fin 2))) x y := by
  refine ⟨rfl, rfl, rfl, rfl, rfl, ?_⟩
  intro x y
  exact fmul_two_half (P.pow (Node.evaluateNode P (.var .x) x y) (F.fin 2))

/-- C6: `dy/dx = x + y` returns status `ok` with classification `linear`,
`P(x) = -1` and `Q(x) = x` (the detected coefficient pair is `(1, x)` and
the negated coefficient simplifies to the literal `-1`), the integrating
factor rendered as `exp(-1 * x)`; the integral of `μ(x)·Q(x)` is not found
by the rule set, and the solver still returns `ok` with the implicit
fallback text rather than an error. -/
theorem processEquation_linear_x_plus_y (P : Prims) :
    (processEquation P "dy/dx = x + y").status = .ok ∧
    (processEquation P "dy/dx = x + y").classification = some "linear" ∧
    detectLinear P (.binary .add (.var .x) (.var .y)) =
      some (.num (F.fin 1), .var .x) ∧
    simplifyNode P (makeNeg P (.num (F.fin 1))) = .num (F.fin (qneg 1)) ∧
    qneg 1 = -1 ∧
    ((processEquation P "dy/dx = x + y").steps.map Step.equationLine).get? 1 =
      some (some "P(x) = -1   ,   Q(x) = x") ∧
    integrate P
      (.binary .mul
        (.fn .exp (.binary .mul (.num (F.fin (qneg 1))) (.var .x)))
        (.var .x)) .x = none ∧
    (processEquation P "dy/dx = x + y").finalSolution =
      some "y(x) = (1/exp(-1 * x)) * (∫ (exp(-1 * x) * x) dx + C)" := by
  refine ⟨rfl, rfl, rfl, rfl, ?_, rfl, rfl, rfl⟩
  rw [qneg_eq]

lemma buildDirectSolution_ok_status {P : Prims} {nm : String} {rhs : Node}
    {r : SolveResult} (h : buildDirectSolution P nm rhs = .ok r) :
    r.status = .ok := by
  unfold buildDirectSolution at h
  split at h
  · cases h
  · cases h
    rfl

lemma buildSeparableSolution_ok_status {P : Prims} {nm : String}
    {rhs xp yp : Node} {r : SolveResult}
    (h : buildSeparableSolution P nm rhs xp yp = .ok r) : r.status = .ok := by
  simp only [buildSeparableSolution] at h
  split at h
  · cases h
    rfl
  · cases h

lemma buildLinearSolution_ok_status {P : Prims} {nm : String}
    {rhs a b : Node} {r : SolveResult}
    (h : buildLinearSolution P nm rhs a b = .ok r) : r.status = .ok := by
  simp only [buildLinearSolution] at h
  split at h
  · cases h
  · cases h
    rfl

lemma buildDirectSolution_isOk {P : Prims} {nm : String} {rhs : Node}
    (h : integrate P rhs .x ≠ none) :
    ∃ r, buildDirectSolution P nm rhs = .ok r ∧ r.status = .ok := by
  unfold buildDirectSolution
  cases hi : integrate P rhs .x with
  | none => exact absurd hi h
  | some i => exact ⟨_, rfl, rfl⟩

lemma buildDirectSolution_err {P : Prims} {nm : String} {rhs : Node}
    (h : integrate P rhs .x = none) :
    buildDirectSolution P nm rhs =
      .error "the right-hand side integral is not easily computable" := by
  unfold buildDirectSolution
  rw [h]

lemma buildSeparableSolution_isOk {P : Prims} {nm : String} {rhs xp yp : Node}
    (hl : integrate P (simplifyNode P (makeDiv P (.num (F.fin 1)) yp)) .y ≠ none)
    (hr : integrate P (simplifyNode P xp) .x ≠ none) :
    ∃ r, buildSeparableSolution P nm rhs xp yp = .ok r ∧ r.status = .ok := by
  simp only [buildSeparableSolution]
  cases hli : integrate P (simplifyNode P (makeDiv P (.num (F.fin 1)) yp)) .y with
  | none => exact absurd hli hl
  | some li =>
    cases hri : integrate P (simplifyNode P xp) .x with
    | none => exact absurd hri hr
    | some ri => exact ⟨_, rfl, rfl⟩

lemma buildSeparableSolution_err {P : Prims} {nm : String} {rhs xp yp : Node}
    (h : integrate P (simplifyNode P (makeDiv P (.num (F.fin 1)) yp)) .y = none ∨
      integrate P (simplifyNode P xp) .x = none) :
    buildSeparableSolution P nm rhs xp yp =
      .error "the integrals needed for the separable solution were unavailable" := by
  simp only [buildSeparableSolution]
  cases hli : integrate P (simplifyNode P (makeDiv P (.num (F.fin 1)) yp)) .y with
  | none => rfl
  | some li =>
    cases hri : integrate P (simplifyNode P xp) .x with
    | none => rfl
    | some ri =>
      rcases h with h | h
      · rw [hli] at h; cases h
      · rw [hri] at h; cases h

lemma buildLinearSolution_isOk {P : Prims} {nm : String} {rhs a b : Node}
    (h : integrate P (simplifyNode P (makeNeg P a)) .x ≠ none) :
    ∃ r, buildLinearSolution P nm rhs a b = .ok r ∧ r.status = .ok := by
  simp only [buildLinearSolution]
  cases hi : integrate P (simplifyNode P (makeNeg P a)) .x with
  | none => exact absurd hi h
  | some i => exact ⟨_, rfl, rfl⟩

lemma buildLinearSolution_err {P : Prims} {nm : String} {rhs a b : Node}
    (h : integrate P (simplifyNode P (makeNeg P a)) .x = none) :
    buildLinearSolution P nm rhs a b =
      .error "the integral of P(x) was not easily computable" := by
  simp only [buildLinearSolution]
  rw [h]

/-- C7 (amended): `processEquation` is a total function (it never throws:
every thrown error of the pipeline is caught into an `error`-status
result).  Malformed inputs — `dy/dx = x +`, a missing `=`, a left side
other than `dy/dx` — give status `error` with a message; every
`error`-status result carries a message; a right-hand side matching none
of the three families gives the distinct status `unsupported`; and every
parsed input classified into one of the three families yields status `ok`
exactly when its required integrations succeed (for `linear` only the
integrating-factor integral is required — a failed `∫ μQ` keeps status
`ok`).  As stated, the final clause of the claim ("every other input
yields status ok") is false: a classified equation whose required
integration fails yields status `error` (see the counterexample); the
amended claim adds this integration-failure case to the error
outcomes. -/
theorem processEquation_status_taxonomy (P : Prims) :
    ((processEquation P "dy/dx = x +").status = .error ∧
      (processEquation P "dy/dx = x +").message.isSome = true) ∧
    (processEquation P "dydx  2*x").status = .error ∧
    (processEquation P "dz/dx = x").status = .error ∧
    (∀ s : String, (processEquation P s).status = .error →
      (processEquation P s).message.isSome = true) ∧
    (∀ (s : String) (parsed : ParsedEquation),
      parseDifferentialEquation P s = .ok parsed →
      classifyEquation P parsed.rhs = .unsupported parsed.rhs →
      processEquation P s =
        { status := .unsupported,
          message := some "this equation is not supported yet" }) ∧
    (∀ (s : String) (parsed : ParsedEquation) (rhs : Node),
      parseDifferentialEquation P s = .ok parsed →
      classifyEquation P parsed.rhs = .direct rhs →
      ((processEquation P s).status = .ok ↔ integrate P rhs .x ≠ none)) ∧
    (∀ (s : String) (parsed : ParsedEquation) (rhs xp yp : Node),
      parseDifferentialEquation P s = .ok parsed →
      classifyEquation P parsed.rhs = .separable rhs xp yp →
      ((processEquation P s).status = .ok ↔
        (integrate P (simplifyNode P (makeDiv P (.num (F.fin 1)) yp)) .y ≠
          none ∧
         integrate P (simplifyNode P xp) .x ≠ none))) ∧
    (∀ (s : String) (parsed : ParsedEquation) (rhs a b : Node),
      parseDifferentialEquation P s = .ok parsed →
      classifyEquation P parsed.rhs = .linear rhs a b →
      ((processEquation P s).status = .ok ↔
        integrate P (simplifyNode P (makeNeg P a)) .x ≠ none)) := by
  refine ⟨⟨rfl, rfl⟩, rfl, rfl, ?_, ?_, ?_, ?_, ?_⟩
  · intro s herr
    unfold processEquation at *
    cases hp : parseDifferentialEquation P s with
    | error m => rfl
    | ok parsed =>
      rw [hp] at herr
      dsimp only at herr ⊢
      cases hc : classifyEquation P parsed.rhs with
      | direct rhs =>
        rw [hc] at herr
        dsimp only at herr ⊢
        cases hb : buildDirectSolution P parsed.normalizedEquation rhs with
        | error m => rfl
        | ok r =>
          rw [hb] at herr
          dsimp only at herr
          rw [buildDirectSolution_ok_status hb] at herr
          cases herr
      | separable rhs xp yp =>
        rw [hc] at herr
        dsimp only at herr ⊢
        cases hb : buildSeparableSolution P parsed.normalizedEquation rhs xp yp with
        | error m => rfl
        | ok r =>
          rw [hb] at herr
          dsimp only at herr
          rw [buildSeparableSolution_ok_status hb] at herr
          cases herr
      | linear rhs a b =>
        rw [hc] at herr
        dsimp only at herr ⊢
        cases hb : buildLinearSolution P parsed.normalizedEquation rhs a b with
        | error m => rfl
        | ok r =>
          rw [hb] at herr
          dsimp only at herr
          rw [buildLinearSolution_ok_status hb] at herr
          cases herr
      | unsupported rhs =>
        rfl
  · intro s parsed hp hc
    unfold processEquation
    rw [hp]
    dsimp only
    rw [hc]
  · intro s parsed rhs hp hc
    unfold processEquation
    rw [hp]
    dsimp only
    rw [hc]
    dsimp only
    constructor
    · intro hok
      cases hi : integrate P rhs .x with
      | some i => simp
      | none =>
        rw [buildDirectSolution_err hi] at hok
        dsimp only at hok
        cases hok
    · intro hi
      obtain ⟨r, hr, hst⟩ := buildDirectSolution_isOk hi
      rw [hr]
      exact hst
  · intro s parsed rhs xp yp hp hc
    unfold processEquation
    rw [hp]
    dsimp only
    rw [hc]
    dsimp only
    constructor
    · intro hok
      constructor
      · cases hli : integrate P
          (simplifyNode P (makeDiv P (.num (F.fin 1)) yp)) .y with
        | some li => simp
        | none =>
          rw [buildSeparableSolution_err (Or.inl hli)] at hok
          dsimp only at hok
          cases hok
      · cases hri : integrate P (simplifyNode P xp) .x with
        | some ri => simp
        | none =>
          rw [buildSeparableSolution_err (Or.inr hri)] at hok
          dsimp only at hok
          cases hok
    · intro hi
      obtain ⟨r, hr, hst⟩ := buildSeparableSolution_isOk hi.1 hi.2
      rw [hr]
      exact hst
  · intro s parsed rhs a b hp hc
    unfold processEquation
    rw [hp]
    dsimp only
    rw [hc]
    dsimp only
    constructor
    · intro hok
      cases hi : integrate P (simplifyNode P (makeNeg P a)) .x with
      | some i => simp
      | none =>
        rw [buildLinearSolution_err hi] at hok
        dsimp only at hok
        cases hok
    · intro hi
      obtain ⟨r, hr, hst⟩ := buildLinearSolution_isOk hi
      rw [hr]
      exact hst

/-- C7 counterexample: `dy/dx = ln(x)` parses, classifies as `direct`
(one of the three solvable families, not malformed, not unsupported), yet
`processEquation` returns status `error` because `∫ ln(x) dx` is outside
the rule set — contradicting the claim that every such input yields
status `ok`. -/
theorem processEquation_integration_failure_counterexample :
    parseDifferentialEquation ratJsPrims "dy/dx = ln(x)" =
      .ok ⟨.fn .ln (.var .x), "dy/dx = ln(x)"⟩ ∧
    classifyEquation ratJsPrims (.fn .ln (.var .x)) =
      .direct (.fn .ln (.var .x)) ∧
    (processEquation ratJsPrims "dy/dx = ln(x)").status = .error :=
  ⟨rfl, rfl, rfl⟩

/-- Witness for C7's universally quantified clauses at concrete inputs:
`dy/dx = x +` for the error-message clause, `dy/dx = sin(x*y)` for the
unsupported clause, `dy/dx = 2*x` for the direct ok-clause and
`dy/dx = x + y` for the linear ok-clause. -/
theorem processEquation_status_taxonomy_witness :
    (processEquation ratJsPrims "dy/dx = x +").message.isSome = true ∧
    processEquation ratJsPrims "dy/dx = sin(x*y)" =
      { status := .unsupported,
        message := some "this equation is not supported yet" } ∧
    ((processEquation ratJsPrims "dy/dx = 2*x").status = .ok ↔
      integrate ratJsPrims (.binary .mul (.num (F.fin 2)) (.var .x)) .x ≠
        none) ∧
    ((processEquation ratJsPrims "dy/dx = x + y").status = .ok ↔
      integrate ratJsPrims
        (simplifyNode ratJsPrims (makeNeg ratJsPrims (.num (F.fin 1)))) .x ≠
        none) := by
  have h := processEquation_status_taxonomy ratJsPrims
  refine ⟨h.2.2.2.1 "dy/dx = x +" rfl, ?_, ?_, ?_⟩
  · exact h.2.2.2.2.1 "dy/dx = sin(x*y)"
      ⟨.fn .sin (.binary .mul (.var .x) (.var .y)), "dy/dx = sin(x * y)"⟩
      rfl rfl
  · exact h.2.2.2.2.2.1 "dy/dx = 2*x"
      ⟨.binary .mul (.num (F.fin 2)) (.var .x), "dy/dx = 2 * x"⟩
      (.binary .mul (.num (F.fin 2)) (.var .x)) rfl rfl
  · exact h.2.2.2.2.2.2.2 "dy/dx = x + y"
      ⟨.binary .add (.var .x) (.var .y), "dy/dx = x + y"⟩
      (.binary .add (.var .x) (.var .y)) (.num (F.fin 1)) (.var .x) rfl rfl

/-! ## Claim C10 -/

lemma natDigitsGo_lt_ten (fuel n : ℕ) : ∀ d ∈ natDigitsGo fuel n, d < 10 := by
  induction fuel generalizing n with
  | zero => intro d hd; simp [natDigitsGo] at hd
  | succ fuel ih =>
    intro d hd
    cases n with
    | zero => simp [natDigitsGo] at hd
    | succ m =>
      simp only [natDigitsGo, List.mem_cons] at hd
      rcases hd with h | h
      · rw [h]; exact Nat.mod_lt _ (by omega)
      · exact ih _ _ h

lemma digitChar_ne_dot : ∀ d < 10, Nat.digitChar d ≠ '.' := by decide

lemma no_dot_natDecimal (n : ℕ) : '.' ∉ (natDecimal n).data := by
  unfold natDecimal
  split
  · decide
  · simp only [String.mk]
    intro hmem
    rw [List.mem_map] at hmem
    obtain ⟨d, hd, hdc⟩ := hmem
    rw [List.mem_reverse] at hd
    exact digitChar_ne_dot d (natDigitsGo_lt_ten _ _ d hd) hdc

lemma no_dot_intDecimal (n : ℤ) : '.' ∉ (intDecimal n).data := by
  unfold intDecimal
  split
  · rw [String.data_append]
    intro hmem
    rcases List.mem_append.mp hmem with h | h
    · simp at h
    · exact no_dot_natDecimal _ h
  · exact no_dot_natDecimal _

/-- C10: `nodeToString` renders a `Number` node whose value is a
mathematical integer as its exact decimal integer string, with no decimal
point; every other finite value is rendered through `toFixed(6)`, i.e. the
value denoted by the rendered text is the half-up rounding of the value at
six fractional digits (so multiplying it by `10^6` gives an integer); and
consequently whenever the stored value itself needs more than six
fractional digits the rendered text denotes a different number than the
stored value. -/
theorem nodeToString_number_rendering :
    (∀ q : ℚ, q.den = 1 →
      Node.nodeToString (.num (F.fin q)) = intDecimal q.num ∧
      formatNumberVal q = q ∧
      '.' ∉ (intDecimal q.num).data) ∧
    (∀ q : ℚ, q.den ≠ 1 →
      Node.nodeToString (.num (F.fin q)) = renderRounded6 (jsToFixed6 q) ∧
      qmul (formatNumberVal q) (mkRat 1000000 1) = mkRat (jsToFixed6 q) 1) ∧
    (∀ q : ℚ, q.den ≠ 1 → (qmul q (mkRat 1000000 1)).den ≠ 1 →
      formatNumberVal q ≠ q) := by
  have hval : ∀ q : ℚ, q.den ≠ 1 →
      qmul (formatNumberVal q) (mkRat 1000000 1) = mkRat (jsToFixed6 q) 1 := by
    intro q hq
    rw [qmul_eq, formatNumberVal]
    simp only [hq, if_false]
    rw [Rat.mkRat_eq_div, Rat.mkRat_eq_div, Rat.mkRat_eq_div]
    push_cast
    field_simp
  refine ⟨?_, ?_, ?_⟩
  · intro q hq
    refine ⟨?_, ?_, no_dot_intDecimal q.num⟩
    · show formatNumber (F.fin q) = intDecimal q.num
      unfold formatNumber
      dsimp only
      rw [if_pos hq]
    · unfold formatNumberVal
      rw [if_pos hq]
  · intro q hq
    refine ⟨?_, hval q hq⟩
    show formatNumber (F.fin q) = renderRounded6 (jsToFixed6 q)
    unfold formatNumber
    dsimp only
    rw [if_neg hq]
  · intro q hq hden heq
    have h := hval q hq
    rw [heq] at h
    have hd : (qmul q (mkRat 1000000 1)).den = 1 := by
      rw [h]
      rw [Rat.mkRat_eq_div]
      push_cast
      rw [div_one]
      exact Rat.den_intCast _
    exact hden hd

/-- Witness for C10 at the integer `5` and the non-integer `1/3`
(`0.333333...` needs more than six fractional digits, so the rendered
value `333333/1000000` differs from `1/3`). -/
theorem nodeToString_number_rendering_witness :
    Node.nodeToString (.num (F.fin 5)) = intDecimal (5 : ℚ).num ∧
    formatNumberVal (mkRat 1 3) ≠ mkRat 1 3 :=
  ⟨(nodeToString_number_rendering.1 5 (by decide)).1,
    nodeToString_number_rendering.2.2 (mkRat 1 3) (by decide) (by decide)⟩

/-! ## Claim C9 -/

lemma rungeKuttaStep_fst (f : F → F → F) (x y h : F) :
    (rungeKuttaStep f x y h).1 = fadd x h := by
  unfold rungeKuttaStep
  dsimp only
  split <;> rfl

lemma integrateGo_length (f : F → F → F) (h : F) :
    ∀ (n : ℕ) (x y : F), (integrateGo f x y h n).length ≤ n := by
  intro n
  induction n with
  | zero => intro x y; simp [integrateGo]
  | succ n ih =>
    intro x y
    rw [integrateGo]
    split
    · simpa using ih _ _
    · simp

lemma integrateGo_finite (f : F → F → F) (h : F) :
    ∀ (n : ℕ) (x y : F), ∀ p ∈ integrateGo f x y h n, p.2.isFinite = true := by
  intro n
  induction n with
  | zero => intro x y p hp; simp [integrateGo] at hp
  | succ n ih =>
    intro x y p hp
    rw [integrateGo] at hp
    split at hp
    · rcases List.mem_cons.mp hp with h1 | h1
      · rename_i hfin
        rw [h1]
        exact hfin
      · exact ih _ _ p h1
    · simp at hp

lemma integrateGo_stop (f : F → F → F) (h : F) :
    ∀ (n : ℕ) (x y : F), (integrateGo f x y h n).length < n →
      (rungeKuttaStep f ((integrateGo f x y h n).getLastD (x, y)).1
        ((integrateGo f x y h n).getLastD (x, y)).2 h).2.isFinite = false := by
  intro n
  induction n with
  | zero => intro x y hlen; simp [integrateGo] at hlen
  | succ n ih =>
    intro x y hlen
    rw [integrateGo] at hlen ⊢
    split at hlen
    · rename_i hfin
      rw [List.length_cons] at hlen
      have hlen' := Nat.lt_of_succ_lt_succ hlen
      rw [if_pos hfin, List.getLastD_cons]
      exact ih _ _ hlen'
    · rename_i hfin
      rw [if_neg hfin]
      simp only [List.getLastD_nil]
      simpa using hfin

lemma fadd_fin_fin (a b : ℚ) : fadd (F.fin a) (F.fin b) = F.fin (qadd a b) := rfl

lemma integrateGo_chain_pos (f : F → F → F) (qh : ℚ) (hq : 0 < qh) :
    ∀ (n : ℕ) (qx : ℚ) (y : F),
      List.Chain (fun p q : F × F => fltB p.1 q.1 = true) (F.fin qx, y)
        (integrateGo f (F.fin qx) y (F.fin qh) n) := by
  intro n
  induction n with
  | zero => intro qx y; exact .nil
  | succ n ih =>
    intro qx y
    rw [integrateGo]
    have hx : (rungeKuttaStep f (F.fin qx) y (F.fin qh)).1 = F.fin (qadd qx qh) := by
      rw [rungeKuttaStep_fst, fadd_fin_fin]
    split
    · rename_i hfin
      refine List.Chain.cons ?_ ?_
      · show fltB (F.fin qx) (rungeKuttaStep f (F.fin qx) y (F.fin qh)).1 = true
        rw [hx]
        show decide (qx < qadd qx qh) = true
        rw [qadd_eq]
        simp only [decide_eq_true_eq]
        linarith
      · rw [hx]
        exact ih (qadd qx qh) _
    · exact .nil

lemma integrateGo_chain_neg (f : F → F → F) (qh : ℚ) (hq : qh < 0) :
    ∀ (n : ℕ) (qx : ℚ) (y : F),
      List.Chain (fun p q : F × F => fltB q.1 p.1 = true) (F.fin qx, y)
        (integrateGo f (F.fin qx) y (F.fin qh) n) := by
  intro n
  induction n with
  | zero => intro qx y; exact .nil
  | succ n ih =>
    intro qx y
    rw [integrateGo]
    have hx : (rungeKuttaStep f (F.fin qx) y (F.fin qh)).1 = F.fin (qadd qx qh) := by
      rw [rungeKuttaStep_fst, fadd_fin_fin]
    split
    · rename_i hfin
      refine List.Chain.cons ?_ ?_
      · show fltB (rungeKuttaStep f (F.fin qx) y (F.fin qh)).1 (F.fin qx) = true
        rw [hx]
        show decide (qadd qx qh < qx) = true
        rw [qadd_eq]
        simp only [decide_eq_true_eq]
        linarith
      · rw [hx]
        exact ih (qadd qx qh) _
    · exact .nil

/-- Boolean pairwise-ordering check, used to decide the ordering property
on concrete lists. -/
def chainB {α : Type} (R : α → α → Bool) : List α → Bool
  | [] => true
  | [_] => true
  | a :: b :: l => R a b && chainB R (b :: l)

lemma chain'_iff_chainB {α : Type} (R : α → α → Bool) :
    ∀ l : List α, List.Chain' (fun a b => R a b = true) l ↔ chainB R l = true
  | [] => by simp [chainB]
  | [a] => by simp [chainB]
  | a :: b :: l => by
    rw [List.chain'_cons, chainB, Bool.and_eq_true,
      chain'_iff_chainB R (b :: l)]

lemma samplePoints_ordered (f : F → F → F) (q0 : ℚ) (y0 : F) (s : ℚ)
    (hs : 0 < s) :
    List.Chain' (fun p q : F × F => fltB p.1 q.1 = true)
      (samplePoints f (F.fin q0) y0 (F.fin s)) := by
  have h160 : (mkRat 160 1 : ℚ) ≠ 0 := by decide
  have hdiv : fdiv (F.fin s) (F.fin (mkRat 160 1)) =
      F.fin (qdiv s (mkRat 160 1)) := by
    simp [fdiv, h160]
  have h160' : (mkRat 160 1 : ℚ) = 160 := by
    rw [Rat.mkRat_eq_div]
    norm_num
  have hm1 : (mkRat (-1) 1 : ℚ) = -1 := by
    rw [Rat.mkRat_eq_div]
    norm_num
  have hdpos : 0 < qdiv s (mkRat 160 1) := by
    rw [qdiv_eq, h160']
    positivity
  have hfh : fmul (fdiv (F.fin s) (F.fin (mkRat 160 1))) (F.fin 1) =
      F.fin (qmul (qdiv s (mkRat 160 1)) 1) := by
    rw [hdiv]
    rfl
  have hbh : fmul (fdiv (F.fin s) (F.fin (mkRat 160 1))) (F.fin (mkRat (-1) 1)) =
      F.fin (qmul (qdiv s (mkRat 160 1)) (mkRat (-1) 1)) := by
    rw [hdiv]
    rfl
  have hfq : 0 < qmul (qdiv s (mkRat 160 1)) 1 := by
    rw [qmul_eq]
    linarith [hdpos]
  have hbq : qmul (qdiv s (mkRat 160 1)) (mkRat (-1) 1) < 0 := by
    rw [qmul_eq, hm1]
    linarith [hdpos]
  unfold samplePoints integrateDirection
  simp only [Nat.cast_ofNat]
  rw [hfh, hbh]
  have cf := integrateGo_chain_pos f _ hfq 160 q0 y0
  have cb := integrateGo_chain_neg f _ hbq 160 q0 y0
  rw [List.chain'_append]
  refine ⟨?_, cf, ?_⟩
  · rw [List.chain'_reverse]
    exact List.Chain'.tail
      (show List.Chain' _ ((F.fin q0, y0) ::
        integrateGo f (F.fin q0) y0
          (F.fin (qmul (qdiv s (mkRat 160 1)) (mkRat (-1) 1))) 160) from cb)
  · intro p hp q hq
    rw [List.getLast?_reverse] at hp
    simp only [List.head?_cons, Option.mem_def, Option.some.injEq] at hq
    subst hq
    cases hB : integrateGo f (F.fin q0) y0
        (F.fin (qmul (qdiv s (mkRat 160 1)) (mkRat (-1) 1))) 160 with
    | nil =>
      rw [hB] at hp
      simp at hp
    | cons b t =>
      rw [hB] at hp cb
      simp only [List.head?_cons, Option.mem_def, Option.some.injEq] at hp
      subst hp
      cases cb with
      | cons hrel _ => exact hrel

/-- C9 (amended): each sampling direction performs at most `steps` RK4
steps (160 at the call site); every emitted point has a finite dependent
value and generation stops exactly at the first step whose updated value
is not finite; and for a finite initial abscissa and a *positive* finite
span the concatenation backward-reversed ++ initial point ++ forward is
strictly ordered by the independent variable.  As stated — for *every*
span — the ordering clause is false: a negative span reverses both
directions (see the counterexample). -/
theorem integrateDirection_sampler_spec :
    (∀ (f : F → F → F) (x0 y0 span : F) (steps : ℕ) (dir : F),
      (integrateDirection f x0 y0 span steps dir).length ≤ steps) ∧
    (∀ (f : F → F → F) (x0 y0 span : F) (steps : ℕ) (dir : F),
      ∀ p ∈ integrateDirection f x0 y0 span steps dir, p.2.isFinite = true) ∧
    (∀ (f : F → F → F) (x0 y0 span : F) (steps : ℕ) (dir : F),
      (integrateDirection f x0 y0 span steps dir).length < steps →
      (rungeKuttaStep f
        ((integrateDirection f x0 y0 span steps dir).getLastD (x0, y0)).1
        ((integrateDirection f x0 y0 span steps dir).getLastD (x0, y0)).2
        (fmul (fdiv span (F.fin (mkRat steps 1))) dir)).2.isFinite = false) ∧
    (∀ (f : F → F → F) (q0 : ℚ) (y0 : F) (s : ℚ), 0 < s →
      List.Chain' (fun p q : F × F => fltB p.1 q.1 = true)
        (samplePoints f (F.fin q0) y0 (F.fin s))) := by
  refine ⟨?_, ?_, ?_, samplePoints_ordered⟩
  · intro f x0 y0 span steps dir
    exact integrateGo_length f _ steps x0 y0
  · intro f x0 y0 span steps dir
    exact integrateGo_finite f _ steps x0 y0
  · intro f x0 y0 span steps dir
    exact integrateGo_stop f _ steps x0 y0

set_option maxRecDepth 100000 in
set_option maxHeartbeats 4000000 in
/-- C9 counterexample: with the zero evaluator, initial point `(0, 0)`
and span `-4`, the assembled point list is ordered by *decreasing*
independent variable, so the claim's ordering clause fails for negative
spans. -/
theorem samplePoints_negative_span_counterexample :
    ¬ List.Chain' (fun p q : F × F => fltB p.1 q.1 = true)
        (samplePoints (fun _ _ => F.fin 0) (F.fin 0) (F.fin 0)
          (F.fin (mkRat (-4) 1))) := by
  rw [chain'_iff_chainB]
  decide

set_option maxRecDepth 100000 in
set_option maxHeartbeats 4000000 in
/-- Witness for C9: the ordering conclusion at span `4` with the zero
evaluator, and the stop conclusion where the very first step from a
non-finite initial value fails. -/
theorem integrateDirection_sampler_spec_witness :
    List.Chain' (fun p q : F × F => fltB p.1 q.1 = true)
      (samplePoints (fun _ _ => F.fin (0 : Rat)) (F.fin (0 : Rat)) (F.fin (0 : Rat))
        (F.fin (4 : Rat))) ∧
    (rungeKuttaStep (fun _ _ => F.fin (0 : Rat))
      ((integrateDirection (fun _ _ => F.fin (0 : Rat)) (F.fin (0 : Rat)) F.inf
        (F.fin (4 : Rat)) 160 (F.fin (1 : Rat))).getLastD (F.fin (0 : Rat), F.inf)).1
      ((integrateDirection (fun _ _ => F.fin (0 : Rat)) (F.fin (0 : Rat)) F.inf
        (F.fin (4 : Rat)) 160 (F.fin (1 : Rat))).getLastD (F.fin (0 : Rat), F.inf)).2
      (fmul (fdiv (F.fin (4 : Rat)) (F.fin (mkRat ((160 : ℕ) : ℤ) 1)))
        (F.fin (1 : Rat)))).2.isFinite = false := by
  have hlen : (integrateDirection (fun _ _ => F.fin (0 : Rat)) (F.fin (0 : Rat)) F.inf (F.fin (4 : Rat)) 160 (F.fin (1 : Rat))).length < 160 := by decide
  have hpos : (0 : ℚ) < (4 : ℚ) := by norm_num
  refine ⟨?_, ?_⟩
  · with_reducible exact @And.right _ _ (@And.right _ _ (@And.right _ _ integrateDirection_sampler_spec)) (fun _ _ => F.fin (0 : Rat)) (0 : Rat) (F.fin (0 : Rat)) (4 : Rat) hpos
  · with_reducible exact @And.left _ _ (@And.right _ _ (@And.right _ _ integrateDirection_sampler_spec)) (fun _ _ => F.fin (0 : Rat)) (F.fin (0 : Rat)) F.inf (F.fin (4 : Rat)) 160 (F.fin (1 : Rat)) hlen


/-! ## Claims C3 and C4: the affine matcher and the quotient rules

The affine walker `matchLinearRecursive` builds intercept nodes with the
`make*` smart constructors, so its output is value-faithful exactly when
every tolerance test performed on the built nodes is exact.  `builtOk`
(below) states that side condition; the main induction `mlr_invariant`
then relates the matched `{a, b}` pair to the input node pointwise. -/

namespace F

lemma isFinite_fadd (a b : F) : (fadd a b).isFinite = (a.isFinite && b.isFinite) := by
  cases a <;> cases b <;> rfl

lemma isFinite_fneg (a : F) : (fneg a).isFinite = a.isFinite := by
  cases a <;> rfl

lemma isFinite_fmul (a b : F) : (fmul a b).isFinite = (a.isFinite && b.isFinite) := by
  cases a <;> cases b <;> first
    | rfl
    | (dsimp only [fmul]; split_ifs <;> rfl)

lemma isFinite_fsub (a b : F) : (fsub a b).isFinite = (a.isFinite && b.isFinite) := by
  rw [fsub, isFinite_fadd, isFinite_fneg]

lemma isFinite_exists {a : F} (h : a.isFinite = true) : ∃ q : ℚ, a = F.fin q := by
  cases a <;> simp [isFinite] at h ⊢

lemma isFinite_fdiv_left {a : F} (b : F) (h : a.isFinite = false) :
    (fdiv a b).isFinite = false := by
  cases a <;> cases b <;> first
    | rfl
    | (dsimp only [fdiv]; split_ifs <;> rfl)
    | simp [isFinite] at h

/-- A value outside the `1e-9` zero band is not the exact zero. -/
lemma absLtTol_false_ne {a : F} (h : a.absLtTol = false) : a ≠ F.fin 0 := by
  intro he
  rw [he] at h
  exact absurd h (by decide)

end F

namespace Node

lemma okLit_var (name : VarName) : okLit (.var name) = true := rfl

lemma okLit_neg (a : Node) : okLit (.neg a) = true := rfl

lemma okLit_fn (name : FuncName) (a : Node) : okLit (.fn name a) = true := rfl

lemma okLit_binary (op : BinOp) (l r : Node) : okLit (.binary op l r) = true := rfl

end Node

/-- `0 * xv + w = w` for finite `xv`. -/
lemma fadd_fmul_zero {xv : F} (hxv : xv.isFinite = true) (w : F) :
    fadd (fmul (F.fin 0) xv) w = w := by
  obtain ⟨qx, rfl⟩ := F.isFinite_exists hxv
  have h0 : fmul (F.fin 0) (F.fin qx) = F.fin 0 := by
    show F.fin (qmul 0 qx) = F.fin 0
    rw [qmul_eq, zero_mul]
  rw [h0, fadd_zero_left]

/-- If `a*xv + w` is finite (with `xv` finite), both the slope and the
intercept value are finite. -/
lemma affine_finite {a xv w : F} (hxv : xv.isFinite = true)
    (h : (fadd (fmul a xv) w).isFinite = true) :
    a.isFinite = true ∧ w.isFinite = true := by
  rw [F.isFinite_fadd, F.isFinite_fmul, hxv] at h
  simp only [Bool.and_true, Bool.and_eq_true] at h
  exact h

namespace Node

set_option maxHeartbeats 1000000 in
/-- Simplification preserves tolerance-exactness: every tolerance test of a
further simplification of `simplifyNode P n` is also exact. -/
lemma toleranceExact_simplify (P : Prims) :
    ∀ n : Node, toleranceExact P n = true →
      toleranceExact P (simplifyNode P n) = true := by
  intro n
  induction n with
  | num v => intro h; exact h
  | var v => intro h; exact h
  | neg a ih =>
    intro h
    have ha := ih h
    rw [simplifyNode]
    cases hs : simplifyNode P a with
    | num v => rfl
    | var name => rfl
    | neg b => rw [hs] at ha; exact ha
    | fn name b => rw [hs] at ha; exact ha
    | binary op l r => rw [hs] at ha; exact ha
  | fn name a ih =>
    intro h
    have ha := ih h
    rw [simplifyNode]
    simpa [toleranceExact] using ha
  | binary op l r ihl ihr =>
    intro h
    simp only [toleranceExact, Bool.and_eq_true] at h
    obtain ⟨⟨⟨htl, htr⟩, hokl⟩, hokr⟩ := h
    have hsl : simplifyNode P (simplifyNode P l) = simplifyNode P l :=
      isSimplified_fix P (simplify_isSimplified P l)
    have hsr : simplifyNode P (simplifyNode P r) = simplifyNode P r :=
      isSimplified_fix P (simplify_isSimplified P r)
    rw [simplifyNode]
    unfold simplifyBinary
    split
    · rfl
    · rename_i l' r' hnb
      cases op <;> dsimp only <;> split_ifs <;>
        simp_all [toleranceExact, ihl htl, ihr htr]

end Node

namespace Node

/-- The tolerance tests on the intercept node built at this match step are
exact. -/
def selfOk (P : Prims) (v : VarName) (n : Node) : Bool :=
  match matchLinearRecursive P v n with
  | some lf => okLit (simplifyNode P lf.b)
  | none => true

/-- Every tolerance test performed on an intercept node built anywhere
during the affine match of `n` is exact. -/
def builtOk (P : Prims) (v : VarName) : Node → Bool
  | .num k => selfOk P v (.num k)
  | .var name => selfOk P v (.var name)
  | .neg a =>
    (if dependsOn (Node.neg a) v = false then true else builtOk P v a) &&
      selfOk P v (.neg a)
  | .fn name a => selfOk P v (.fn name a)
  | .binary op l r =>
    (if dependsOn (Node.binary op l r) v = false then true
     else builtOk P v l && builtOk P v r) &&
      selfOk P v (.binary op l r)

lemma builtOk_self {P : Prims} {v : VarName} {n : Node}
    (h : builtOk P v n = true) : selfOk P v n = true := by
  cases n with
  | num k => exact h
  | var name => exact h
  | neg a => exact (Bool.and_eq_true _ _ |>.mp h).2
  | fn name a => exact h
  | binary op l r => exact (Bool.and_eq_true _ _ |>.mp h).2

lemma selfOk_okLit {P : Prims} {v : VarName} {n : Node} {lf : LinForm}
    (hm : matchLinearRecursive P v n = some lf) (h : selfOk P v n = true) :
    okLit (simplifyNode P lf.b) = true := by
  unfold selfOk at h
  rw [hm] at h
  exact h

/-- A successful `extractNumericConstant` means the node is that literal. -/
lemma extract_eq_num {n : Node} {c : F} (h : extractNumericConstant n = some c) :
    n = .num c := by
  unfold extractNumericConstant at h
  split at h
  · split at h
    · cases h; rfl
    · cases h
  · cases h

end Node

namespace Node

/-- Evaluating a `make*` smart constructor against the plain binary node,
with the `NaN` escape. -/
lemma eval_make_or_nan (P : Prims) (x y : F) (op : BinOp) (l r : Node)
    (htl : toleranceExact P l = true) (htr : toleranceExact P r = true)
    (hokl : okLit (simplifyNode P l) = true)
    (hokr : okLit (simplifyNode P r) = true) :
    evaluateNode P (simplifyNode P (.binary op l r)) x y =
      evalBinary P op (evaluateNode P l x y) (evaluateNode P r x y) ∨
    evalBinary P op (evaluateNode P l x y) (evaluateNode P r x y) = F.nan := by
  have htE : toleranceExact P (.binary op l r) = true := by
    simp [toleranceExact, htl, htr, hokl, hokr]
  exact eval_simplify_or_nan P x y (.binary op l r) htE

end Node

/-- `fdiv` on finite values with a nonzero divisor. -/
lemma fdiv_fin_fin {a b : ℚ} (hb : b ≠ 0) :
    fdiv (F.fin a) (F.fin b) = F.fin (qdiv a b) := by
  show (if b = 0 then _ else F.fin (qdiv a b)) = F.fin (qdiv a b)
  rw [if_neg hb]

namespace Node

/-- A node that does not mention the variable matches as a pure intercept
`{a: 0, b: node}` in `matchLinearRecursive`. -/
lemma matchLinearRecursive_indep (P : Prims) (v : VarName) (b : Node)
    (hb : dependsOn b v = false) :
    matchLinearRecursive P v b = some ⟨F.fin 0, b⟩ := by
  cases b with
  | num k => rfl
  | var n =>
    have hnv : ¬ n = v := by simpa [dependsOn] using hb
    simp [matchLinearRecursive, hnv]
  | neg a => simp [matchLinearRecursive, hb]
  | fn name a => simp [matchLinearRecursive, hb]
  | binary op l r => simp [matchLinearRecursive, hb]

set_option maxHeartbeats 2000000 in
/-- Main invariant of the affine walker: a successful match on a
tolerance-exact node whose built intercepts are exact yields a
tolerance-exact intercept node, and slope and intercept reproduce the
input's value at every point where the match variable is finite and the
input evaluates to a finite value. -/
lemma mlr_invariant (P : Prims) (v : VarName) :
    ∀ (n : Node) (lf : LinForm),
      matchLinearRecursive P v n = some lf →
      toleranceExact P n = true → builtOk P v n = true →
      toleranceExact P lf.b = true ∧
      ∀ x y : F, (evaluateNode P (.var v) x y).isFinite = true →
        (fadd (fmul lf.a (evaluateNode P (.var v) x y))
            (evaluateNode P lf.b x y) = evaluateNode P n x y ∨
          (evaluateNode P n x y).isFinite = false) := by
  intro n
  induction n with
  | num k =>
    intro lf hm htE hbo
    rw [matchLinearRecursive] at hm
    injection hm with hm
    subst hm
    refine ⟨rfl, ?_⟩
    intro x y hxv
    left
    show fadd (fmul (F.fin 0) _) _ = _
    rw [fadd_fmul_zero hxv]
  | var name =>
    intro lf hm htE hbo
    rw [matchLinearRecursive] at hm
    by_cases hnv : name = v
    · subst hnv
      rw [if_pos rfl] at hm
      injection hm with hm
      subst hm
      refine ⟨rfl, ?_⟩
      intro x y hxv
      left
      show fadd (fmul (F.fin 1) (evaluateNode P (.var name) x y)) (F.fin 0) = _
      rw [fmul_one_left, fadd_zero_right]
    · rw [if_neg hnv] at hm
      injection hm with hm
      subst hm
      refine ⟨rfl, ?_⟩
      intro x y hxv
      left
      show fadd (fmul (F.fin 0) _) _ = _
      rw [fadd_fmul_zero hxv]
  | neg a ih =>
    intro lf hm htE hbo
    by_cases hdep : dependsOn (Node.neg a) v = false
    · rw [matchLinearRecursive, if_pos hdep] at hm
      injection hm with hm
      subst hm
      refine ⟨htE, ?_⟩
      intro x y hxv
      left
      show fadd (fmul (F.fin 0) _) _ = _
      rw [fadd_fmul_zero hxv]
    · rw [matchLinearRecursive, if_neg hdep] at hm
      have hboa : builtOk P v a = true := by
        have h1 := (Bool.and_eq_true _ _ |>.mp hbo).1
        rw [if_neg hdep] at h1
        exact h1
      cases hi : matchLinearRecursive P v a with
      | none => rw [hi] at hm; cases hm
      | some inner =>
        rw [hi] at hm
        injection hm with hm
        subst hm
        have htEa : toleranceExact P a = true := htE
        obtain ⟨htb, hval⟩ := ih inner hi htEa hboa
        refine ⟨toleranceExact_simplify P (.neg inner.b) htb, ?_⟩
        intro x y hxv
        rcases hval x y hxv with heq | hnf
        · cases haf : (evaluateNode P a x y).isFinite with
          | false =>
            right
            show (fneg (evaluateNode P a x y)).isFinite = false
            rw [F.isFinite_fneg, haf]
          | true =>
            left
            obtain ⟨hia, hib⟩ := affine_finite hxv (by rw [heq]; exact haf)
            obtain ⟨jx, hjx⟩ := F.isFinite_exists hxv
            obtain ⟨ja, hja⟩ := F.isFinite_exists hia
            obtain ⟨jb, hjb⟩ := F.isFinite_exists hib
            have hmb : evaluateNode P (makeNeg P inner.b) x y =
                fneg (evaluateNode P inner.b x y) := by
              rcases eval_simplify_or_nan P x y (.neg inner.b) htb with h | h
              · exact h
              · exfalso
                rw [show evaluateNode P (.neg inner.b) x y =
                    fneg (evaluateNode P inner.b x y) from rfl, hjb] at h
                exact F.noConfusion h
            show fadd (fmul (fneg inner.a) (evaluateNode P (.var v) x y))
                (evaluateNode P (makeNeg P inner.b) x y) =
              fneg (evaluateNode P a x y)
            rw [hmb, ← heq, hja, hjb, hjx]
            show F.fin (qadd (qmul (qneg ja) jx) (qneg jb)) =
              F.fin (qneg (qadd (qmul ja jx) jb))
            exact congrArg F.fin
              (by simp only [qadd_eq, qmul_eq, qneg_eq]; ring)
        · right
          show (fneg (evaluateNode P a x y)).isFinite = false
          rw [F.isFinite_fneg, hnf]
  | fn name a ih =>
    intro lf hm htE hbo
    by_cases hdep : dependsOn (Node.fn name a) v = false
    · rw [matchLinearRecursive, if_pos hdep] at hm
      injection hm with hm
      subst hm
      refine ⟨htE, ?_⟩
      intro x y hxv
      left
      show fadd (fmul (F.fin 0) _) _ = _
      rw [fadd_fmul_zero hxv]
    · rw [matchLinearRecursive, if_neg hdep] at hm
      cases hm
  | binary op l r ihl ihr =>
    intro lf hm htE hbo
    by_cases hdep : dependsOn (Node.binary op l r) v = false
    · rw [matchLinearRecursive_indep P v _ hdep] at hm
      injection hm with hm
      subst hm
      refine ⟨htE, ?_⟩
      intro x y hxv
      left
      show fadd (fmul (F.fin 0) _) _ = _
      rw [fadd_fmul_zero hxv]
    · simp only [toleranceExact, Bool.and_eq_true] at htE
      obtain ⟨⟨⟨htl, htr⟩, hokl⟩, hokr⟩ := htE
      have hblr : builtOk P v l = true ∧ builtOk P v r = true := by
        have h1 := (Bool.and_eq_true _ _ |>.mp hbo).1
        rw [if_neg hdep] at h1
        exact Bool.and_eq_true _ _ |>.mp h1
      obtain ⟨hbl, hbr⟩ := hblr
      cases op with
      | add =>
        rw [matchLinearRecursive, if_neg hdep] at hm
        cases hl : matchLinearRecursive P v l with
        | none => rw [hl] at hm; cases hm
        | some ll =>
          cases hr' : matchLinearRecursive P v r with
          | none => rw [hl, hr'] at hm; cases hm
          | some rl =>
            rw [hl, hr'] at hm
            injection hm with hm
            subst hm
            obtain ⟨htbl, hvl⟩ := ihl ll hl htl hbl
            obtain ⟨htbr, hvr⟩ := ihr rl hr' htr hbr
            have hokbl := selfOk_okLit hl (builtOk_self hbl)
            have hokbr := selfOk_okLit hr' (builtOk_self hbr)
            refine ⟨toleranceExact_simplify P (.binary .add ll.b rl.b)
              (by simp [toleranceExact, htbl, htbr, hokbl, hokbr]), ?_⟩
            intro x y hxv
            rcases hvl x y hxv with hL | hLnf
            · rcases hvr x y hxv with hR | hRnf
              · cases hlf : (evaluateNode P l x y).isFinite with
                | false =>
                  right
                  show (fadd (evaluateNode P l x y)
                    (evaluateNode P r x y)).isFinite = false
                  rw [F.isFinite_fadd, hlf, Bool.false_and]
                | true =>
                  cases hrf : (evaluateNode P r x y).isFinite with
                  | false =>
                    right
                    show (fadd (evaluateNode P l x y)
                      (evaluateNode P r x y)).isFinite = false
                    rw [F.isFinite_fadd, hrf, Bool.and_false]
                  | true =>
                    left
                    obtain ⟨hla, hlb⟩ := affine_finite hxv (by rw [hL]; exact hlf)
                    obtain ⟨hra, hrb⟩ := affine_finite hxv (by rw [hR]; exact hrf)
                    obtain ⟨jx, hjx⟩ := F.isFinite_exists hxv
                    obtain ⟨jla, hjla⟩ := F.isFinite_exists hla
                    obtain ⟨jlb, hjlb⟩ := F.isFinite_exists hlb
                    obtain ⟨jra, hjra⟩ := F.isFinite_exists hra
                    obtain ⟨jrb, hjrb⟩ := F.isFinite_exists hrb
                    have hev : evaluateNode P (makeAdd P ll.b rl.b) x y =
                        fadd (evaluateNode P ll.b x y)
                          (evaluateNode P rl.b x y) := by
                      rcases eval_make_or_nan P x y .add ll.b rl.b htbl htbr
                        hokbl hokbr with h | h
                      · exact h
                      · exfalso
                        rw [show evalBinary P .add (evaluateNode P ll.b x y)
                            (evaluateNode P rl.b x y) =
                            fadd (evaluateNode P ll.b x y)
                              (evaluateNode P rl.b x y) from rfl,
                          hjlb, hjrb] at h
                        exact F.noConfusion h
                    show fadd (fmul (fadd ll.a rl.a) (evaluateNode P (.var v) x y))
                        (evaluateNode P (makeAdd P ll.b rl.b) x y) =
                      fadd (evaluateNode P l x y) (evaluateNode P r x y)
                    rw [hev, ← hL, ← hR, hjla, hjra, hjlb, hjrb, hjx]
                    show F.fin (qadd (qmul (qadd jla jra) jx) (qadd jlb jrb)) =
                      F.fin (qadd (qadd (qmul jla jx) jlb)
                        (qadd (qmul jra jx) jrb))
                    exact congrArg F.fin
                      (by simp only [qadd_eq, qmul_eq]; ring)
              · right
                show (fadd (evaluateNode P l x y)
                  (evaluateNode P r x y)).isFinite = false
                rw [F.isFinite_fadd, hRnf, Bool.and_false]
            · right
              show (fadd (evaluateNode P l x y)
                (evaluateNode P r x y)).isFinite = false
              rw [F.isFinite_fadd, hLnf, Bool.false_and]
      | sub =>
        rw [matchLinearRecursive, if_neg hdep] at hm
        cases hl : matchLinearRecursive P v l with
        | none => rw [hl] at hm; cases hm
        | some ll =>
          cases hr' : matchLinearRecursive P v r with
          | none => rw [hl, hr'] at hm; cases hm
          | some rl =>
            rw [hl, hr'] at hm
            injection hm with hm
            subst hm
            obtain ⟨htbl, hvl⟩ := ihl ll hl htl hbl
            obtain ⟨htbr, hvr⟩ := ihr rl hr' htr hbr
            have hokbl := selfOk_okLit hl (builtOk_self hbl)
            have hokbr := selfOk_okLit hr' (builtOk_self hbr)
            refine ⟨toleranceExact_simplify P (.binary .sub ll.b rl.b)
              (by simp [toleranceExact, htbl, htbr, hokbl, hokbr]), ?_⟩
            intro x y hxv
            rcases hvl x y hxv with hL | hLnf
            · rcases hvr x y hxv with hR | hRnf
              · cases hlf : (evaluateNode P l x y).isFinite with
                | false =>
                  right
                  show (fsub (evaluateNode P l x y)
                    (evaluateNode P r x y)).isFinite = false
                  rw [F.isFinite_fsub, hlf, Bool.false_and]
                | true =>
                  cases hrf : (evaluateNode P r x y).isFinite with
                  | false =>
                    right
                    show (fsub (evaluateNode P l x y)
                      (evaluateNode P r x y)).isFinite = false
                    rw [F.isFinite_fsub, hrf, Bool.and_false]
                  | true =>
                    left
                    obtain ⟨hla, hlb⟩ := affine_finite hxv (by rw [hL]; exact hlf)
                    obtain ⟨hra, hrb⟩ := affine_finite hxv (by rw [hR]; exact hrf)
                    obtain ⟨jx, hjx⟩ := F.isFinite_exists hxv
                    obtain ⟨jla, hjla⟩ := F.isFinite_exists hla
                    obtain ⟨jlb, hjlb⟩ := F.isFinite_exists hlb
                    obtain ⟨jra, hjra⟩ := F.isFinite_exists hra
                    obtain ⟨jrb, hjrb⟩ := F.isFinite_exists hrb
                    have hev : evaluateNode P (makeSub P ll.b rl.b) x y =
                        fsub (evaluateNode P ll.b x y)
                          (evaluateNode P rl.b x y) := by
                      rcases eval_make_or_nan P x y .sub ll.b rl.b htbl htbr
                        hokbl hokbr with h | h
                      · exact h
                      · exfalso
                        rw [show evalBinary P .sub (evaluateNode P ll.b x y)
                            (evaluateNode P rl.b x y) =
                            fsub (evaluateNode P ll.b x y)
                              (evaluateNode P rl.b x y) from rfl,
                          hjlb, hjrb] at h
                        exact F.noConfusion h
                    show fadd (fmul (fsub ll.a rl.a) (evaluateNode P (.var v) x y))
                        (evaluateNode P (makeSub P ll.b rl.b) x y) =
                      fsub (evaluateNode P l x y) (evaluateNode P r x y)
                    rw [hev, ← hL, ← hR, hjla, hjra, hjlb, hjrb, hjx]
                    show F.fin (qadd (qmul (qadd jla (qneg jra)) jx)
                        (qadd jlb (qneg jrb))) =
                      F.fin (qadd (qadd (qmul jla jx) jlb)
                        (qneg (qadd (qmul jra jx) jrb)))
                    exact congrArg F.fin
                      (by simp only [qadd_eq, qmul_eq, qneg_eq]; ring)
              · right
                show (fsub (evaluateNode P l x y)
                  (evaluateNode P r x y)).isFinite = false
                rw [F.isFinite_fsub, hRnf, Bool.and_false]
            · right
              show (fsub (evaluateNode P l x y)
                (evaluateNode P r x y)).isFinite = false
              rw [F.isFinite_fsub, hLnf, Bool.false_and]
      | mul =>
        rw [matchLinearRecursive, if_neg hdep] at hm
        by_cases hcl : isConstantWithRespectTo l v = true
        · rw [if_pos hcl] at hm
          cases hec : extractNumericConstant l with
          | none => rw [hec] at hm; cases hm
          | some lc =>
            rw [hec] at hm
            have hleq := extract_eq_num hec
            subst hleq
            cases hrm : matchLinearRecursive P v r with
            | none => rw [hrm] at hm; cases hm
            | some rl =>
              rw [hrm] at hm
              injection hm with hm
              subst hm
              obtain ⟨htbr, hvr⟩ := ihr rl hrm htr hbr
              have hokbr := selfOk_okLit hrm (builtOk_self hbr)
              refine ⟨toleranceExact_simplify P (.binary .mul (.num lc) rl.b)
                (by simp only [toleranceExact, Bool.and_eq_true]
                    exact ⟨⟨⟨trivial, htbr⟩, hokl⟩, hokbr⟩), ?_⟩
              intro x y hxv
              rcases hvr x y hxv with hR | hRnf
              · cases hlcf : lc.isFinite with
                | false =>
                  right
                  show (fmul lc (evaluateNode P r x y)).isFinite = false
                  rw [F.isFinite_fmul, hlcf, Bool.false_and]
                | true =>
                  cases hrf : (evaluateNode P r x y).isFinite with
                  | false =>
                    right
                    show (fmul lc (evaluateNode P r x y)).isFinite = false
                    rw [F.isFinite_fmul, hrf, Bool.and_false]
                  | true =>
                    left
                    obtain ⟨hra, hrb⟩ := affine_finite hxv (by rw [hR]; exact hrf)
                    obtain ⟨jx, hjx⟩ := F.isFinite_exists hxv
                    obtain ⟨jc, hjc⟩ := F.isFinite_exists hlcf
                    obtain ⟨jra, hjra⟩ := F.isFinite_exists hra
                    obtain ⟨jrb, hjrb⟩ := F.isFinite_exists hrb
                    have hev : evaluateNode P (makeMul P (.num lc) rl.b) x y =
                        fmul lc (evaluateNode P rl.b x y) := by
                      rcases eval_make_or_nan P x y .mul (.num lc) rl.b rfl htbr
                        hokl hokbr with h | h
                      · exact h
                      · exfalso
                        rw [show evalBinary P .mul
                            (evaluateNode P (.num lc) x y)
                            (evaluateNode P rl.b x y) =
                            fmul lc (evaluateNode P rl.b x y) from rfl,
                          hjc, hjrb] at h
                        exact F.noConfusion h
                    show fadd (fmul (fmul rl.a lc) (evaluateNode P (.var v) x y))
                        (evaluateNode P (makeMul P (.num lc) rl.b) x y) =
                      fmul lc (evaluateNode P r x y)
                    rw [hev, ← hR, hjc, hjra, hjrb, hjx]
                    show F.fin (qadd (qmul (qmul jra jc) jx) (qmul jc jrb)) =
                      F.fin (qmul jc (qadd (qmul jra jx) jrb))
                    exact congrArg F.fin
                      (by simp only [qadd_eq, qmul_eq]; ring)
              · right
                show (fmul lc (evaluateNode P r x y)).isFinite = false
                rw [F.isFinite_fmul, hRnf, Bool.and_false]
        · rw [if_neg hcl] at hm
          by_cases hcr : isConstantWithRespectTo r v = true
          · rw [if_pos hcr] at hm
            cases hec : extractNumericConstant r with
            | none => rw [hec] at hm; cases hm
            | some rc =>
              rw [hec] at hm
              have hreq := extract_eq_num hec
              subst hreq
              cases hlm : matchLinearRecursive P v l with
              | none => rw [hlm] at hm; cases hm
              | some ll =>
                rw [hlm] at hm
                injection hm with hm
                subst hm
                obtain ⟨htbl, hvl⟩ := ihl ll hlm htl hbl
                have hokbl := selfOk_okLit hlm (builtOk_self hbl)
                refine ⟨toleranceExact_simplify P (.binary .mul (.num rc) ll.b)
                  (by simp only [toleranceExact, Bool.and_eq_true]
                      exact ⟨⟨⟨trivial, htbl⟩, hokr⟩, hokbl⟩), ?_⟩
                intro x y hxv
                rcases hvl x y hxv with hL | hLnf
                · cases hrcf : rc.isFinite with
                  | false =>
                    right
                    show (fmul (evaluateNode P l x y) rc).isFinite = false
                    rw [F.isFinite_fmul, hrcf, Bool.and_false]
                  | true =>
                    cases hlf : (evaluateNode P l x y).isFinite with
                    | false =>
                      right
                      show (fmul (evaluateNode P l x y) rc).isFinite = false
                      rw [F.isFinite_fmul, hlf, Bool.false_and]
                    | true =>
                      left
                      obtain ⟨hla, hlb⟩ := affine_finite hxv (by rw [hL]; exact hlf)
                      obtain ⟨jx, hjx⟩ := F.isFinite_exists hxv
                      obtain ⟨jc, hjc⟩ := F.isFinite_exists hrcf
                      obtain ⟨jla, hjla⟩ := F.isFinite_exists hla
                      obtain ⟨jlb, hjlb⟩ := F.isFinite_exists hlb
                      have hev : evaluateNode P (makeMul P (.num rc) ll.b) x y =
                          fmul rc (evaluateNode P ll.b x y) := by
                        rcases eval_make_or_nan P x y .mul (.num rc) ll.b rfl htbl
                          hokr hokbl with h | h
                        · exact h
                        · exfalso
                          rw [show evalBinary P .mul
                              (evaluateNode P (.num rc) x y)
                              (evaluateNode P ll.b x y) =
                              fmul rc (evaluateNode P ll.b x y) from rfl,
                            hjc, hjlb] at h
                          exact F.noConfusion h
                      show fadd (fmul (fmul ll.a rc) (evaluateNode P (.var v) x y))
                          (evaluateNode P (makeMul P (.num rc) ll.b) x y) =
                        fmul (evaluateNode P l x y) rc
                      rw [hev, ← hL, hjc, hjla, hjlb, hjx]
                      show F.fin (qadd (qmul (qmul jla jc) jx) (qmul jc jlb)) =
                        F.fin (qmul (qadd (qmul jla jx) jlb) jc)
                      exact congrArg F.fin
                        (by simp only [qadd_eq, qmul_eq]; ring)
                · right
                  show (fmul (evaluateNode P l x y) rc).isFinite = false
                  rw [F.isFinite_fmul, hLnf, Bool.false_and]
          · rw [if_neg hcr] at hm
            cases hm
      | div =>
        rw [matchLinearRecursive, if_neg hdep] at hm
        by_cases hcr : isConstantWithRespectTo r v = true
        · rw [if_pos hcr] at hm
          cases hec : extractNumericConstant r with
          | none => rw [hec] at hm; cases hm
          | some cv =>
            rw [hec] at hm
            have hreq := extract_eq_num hec
            subst hreq
            dsimp only at hm
            cases htol : cv.absLtTol with
            | true => rw [htol, if_pos rfl] at hm; cases hm
            | false =>
              rw [htol, if_neg (by simp)] at hm
              cases hlm : matchLinearRecursive P v l with
              | none => rw [hlm] at hm; cases hm
              | some ll =>
                rw [hlm] at hm
                injection hm with hm
                subst hm
                obtain ⟨htbl, hvl⟩ := ihl ll hlm htl hbl
                have hokbl := selfOk_okLit hlm (builtOk_self hbl)
                refine ⟨toleranceExact_simplify P (.binary .div ll.b (.num cv))
                  (by simp only [toleranceExact, Bool.and_eq_true]
                      exact ⟨⟨⟨htbl, trivial⟩, hokbl⟩, hokr⟩), ?_⟩
                intro x y hxv
                rcases hvl x y hxv with hL | hLnf
                · cases hlf : (evaluateNode P l x y).isFinite with
                  | false =>
                    right
                    show (fdiv (evaluateNode P l x y) cv).isFinite = false
                    exact F.isFinite_fdiv_left cv hlf
                  | true =>
                    obtain ⟨hla, hlb⟩ := affine_finite hxv (by rw [hL]; exact hlf)
                    obtain ⟨jx, hjx⟩ := F.isFinite_exists hxv
                    obtain ⟨jla, hjla⟩ := F.isFinite_exists hla
                    obtain ⟨jlb, hjlb⟩ := F.isFinite_exists hlb
                    cases cv with
                    | fin qc =>
                      have hqc0 : qc ≠ 0 := by
                        intro h0
                        exact F.absLtTol_false_ne htol (by rw [h0])
                      left
                      have hev : evaluateNode P
                          (makeDiv P ll.b (.num (F.fin qc))) x y =
                          fdiv (evaluateNode P ll.b x y) (F.fin qc) := by
                        rcases eval_make_or_nan P x y .div ll.b (.num (F.fin qc))
                          htbl rfl hokbl hokr with h | h
                        · exact h
                        · exfalso
                          rw [show evalBinary P .div (evaluateNode P ll.b x y)
                              (evaluateNode P (.num (F.fin qc)) x y) =
                              fdiv (evaluateNode P ll.b x y) (F.fin qc) from rfl,
                            hjlb, fdiv_fin_fin hqc0] at h
                          exact F.noConfusion h
                      show fadd
                          (fmul (fdiv ll.a (F.fin qc)) (evaluateNode P (.var v) x y))
                          (evaluateNode P (makeDiv P ll.b (.num (F.fin qc))) x y) =
                        fdiv (evaluateNode P l x y) (F.fin qc)
                      rw [hev, ← hL, hjla, hjlb, hjx, fdiv_fin_fin hqc0,
                        fdiv_fin_fin hqc0,
                        show fadd (fmul (F.fin jla) (F.fin jx)) (F.fin jlb) =
                          F.fin (qadd (qmul jla jx) jlb) from rfl,
                        fdiv_fin_fin hqc0]
                      show F.fin (qadd (qmul (qdiv jla qc) jx) (qdiv jlb qc)) =
                        F.fin (qdiv (qadd (qmul jla jx) jlb) qc)
                      exact congrArg F.fin
                        (by simp only [qadd_eq, qmul_eq, qdiv_eq]; ring)
                    | inf =>
                      left
                      have hev : evaluateNode P
                          (makeDiv P ll.b (.num F.inf)) x y = F.fin 0 := by
                        show evaluateNode P
                          (simplifyNode P (.binary .div ll.b (.num F.inf))) x y =
                          F.fin 0
                        rcases eval_make_or_nan P x y .div ll.b (.num F.inf)
                          htbl rfl hokbl hokr with h | h
                        · rw [h, show evalBinary P .div (evaluateNode P ll.b x y)
                              (evaluateNode P (.num F.inf) x y) =
                              fdiv (evaluateNode P ll.b x y) F.inf from rfl,
                            hjlb]
                          rfl
                        · exfalso
                          rw [show evalBinary P .div (evaluateNode P ll.b x y)
                              (evaluateNode P (.num F.inf) x y) =
                              fdiv (evaluateNode P ll.b x y) F.inf from rfl,
                            hjlb] at h
                          exact F.noConfusion h
                      show fadd (fmul (fdiv ll.a F.inf) (evaluateNode P (.var v) x y))
                          (evaluateNode P (makeDiv P ll.b (.num F.inf)) x y) =
                        fdiv (evaluateNode P l x y) F.inf
                      rw [hev, hjla, hjx, hjlb] at *
                      rw [hjla]
                      show fadd (fmul (F.fin 0) (F.fin jx)) (F.fin 0) =
                        fdiv (evaluateNode P l x y) F.inf
                      rw [fadd_fmul_zero (by rfl : (F.fin jx).isFinite = true)]
                      obtain ⟨jl, hjl⟩ := F.isFinite_exists hlf
                      rw [hjl]
                      rfl
                    | ninf =>
                      left
                      have hev : evaluateNode P
                          (makeDiv P ll.b (.num F.ninf)) x y = F.fin 0 := by
                        show evaluateNode P
                          (simplifyNode P (.binary .div ll.b (.num F.ninf))) x y =
                          F.fin 0
                        rcases eval_make_or_nan P x y .div ll.b (.num F.ninf)
                          htbl rfl hokbl hokr with h | h
                        · rw [h, show evalBinary P .div (evaluateNode P ll.b x y)
                              (evaluateNode P (.num F.ninf) x y) =
                              fdiv (evaluateNode P ll.b x y) F.ninf from rfl,
                            hjlb]
                          rfl
                        · exfalso
                          rw [show evalBinary P .div (evaluateNode P ll.b x y)
                              (evaluateNode P (.num F.ninf) x y) =
                              fdiv (evaluateNode P ll.b x y) F.ninf from rfl,
                            hjlb] at h
                          exact F.noConfusion h
                      show fadd (fmul (fdiv ll.a F.ninf) (evaluateNode P (.var v) x y))
                          (evaluateNode P (makeDiv P ll.b (.num F.ninf)) x y) =
                        fdiv (evaluateNode P l x y) F.ninf
                      rw [hev, hjla]
                      show fadd (fmul (F.fin 0) (evaluateNode P (.var v) x y)) (F.fin 0) =
                        fdiv (evaluateNode P l x y) F.ninf
                      rw [fadd_fmul_zero hxv]
                      obtain ⟨jl, hjl⟩ := F.isFinite_exists hlf
                      rw [hjl]
                      rfl
                    | nan =>
                      right
                      show (fdiv (evaluateNode P l x y) F.nan).isFinite = false
                      rw [fdiv_nan_right]
                      rfl
                · right
                  show (fdiv (evaluateNode P l x y) cv).isFinite = false
                  exact F.isFinite_fdiv_left cv hLnf
        · rw [if_neg hcr] at hm
          cases hm
      | pow =>
        rw [matchLinearRecursive, if_neg hdep] at hm
        cases hm

end Node

namespace Node

/-- `matchLinear` on a successful match whose coefficient is outside the
zero band keeps the matched slope and intercept. -/
lemma matchLinear_of_mlr {P : Prims} {v : VarName} {n : Node} {lf : LinForm}
    (hm : matchLinearRecursive P v n = some lf) (ha : lf.a.absLtTol = false) :
    matchLinear P v n = some ⟨lf.a, lf.b,
      simplifyNode P (makeAdd P (makeMul P (.num lf.a) (.var v)) lf.b)⟩ := by
  rw [matchLinear, hm]
  dsimp only
  rw [ha]
  simp only [Bool.false_eq_true, if_false]

end Node

set_option maxHeartbeats 1000000 in
/-- C4 (amended): for every node that the structural affine walker
decomposes as `a*v + b` — walking `+`, `-`, unary negation and `*`/`/` by
numeric literals — with `|a| ≥ 1e-9` and exact tolerance tests
(`toleranceExact` on the input, `builtOk` on the built intercepts),
`matchLinear` succeeds, recovers the coefficient exactly, and its
intercept node rebuilds an expression with the input's value at every
point where the match variable and the input evaluate to finite values. -/
theorem matchLinear_recovers_affine (P : Prims) (v : VarName) (n : Node)
    (lf : LinForm) (hm : matchLinearRecursive P v n = some lf)
    (ha : lf.a.absLtTol = false)
    (htE : Node.toleranceExact P n = true)
    (hbo : Node.builtOk P v n = true) :
    ∃ li : LinMatch,
      matchLinear P v n = some li ∧ li.a = lf.a ∧
      ∀ x y : F, (Node.evaluateNode P (.var v) x y).isFinite = true →
        (Node.evaluateNode P
            (.binary .add (.binary .mul (.num li.a) (.var v)) li.b) x y =
          Node.evaluateNode P n x y ∨
        (Node.evaluateNode P n x y).isFinite = false) := by
  refine ⟨_, Node.matchLinear_of_mlr hm ha, rfl, ?_⟩
  intro x y hxv
  exact (Node.mlr_invariant P v n lf hm htE hbo).2 x y hxv

set_option maxRecDepth 100000 in
/-- C4 counterexample: (1) the affine node `(5e-10)*x` has the nonzero
coefficient `5e-10`, yet `matchLinear` reports the coefficient `0`,
because the coefficient lies inside the `1e-9` collapse band; (2) for
`x + (5e-10)*y` — affine in `x` with intercept `(5e-10)*y` — the
intercept is absorbed by the zero-band test while being rebuilt, so the
node reconstructed from the returned pair evaluates to `0` at
`(x, y) = (0, 2e9)` while the input evaluates to `1`: the value changes
far beyond any tolerance. -/
theorem matchLinear_tolerance_counterexample :
    ((matchLinear ratJsPrims .x
        (.binary .mul (.num (F.fin (mkRat 1 2000000000))) (.var .x))).map
        LinMatch.a = some (F.fin 0) ∧
      F.fin (mkRat 1 2000000000) ≠ F.fin 0) ∧
    ((matchLinear ratJsPrims .x
        (.binary .add (.var .x)
          (.binary .mul (.num (F.fin (mkRat 1 2000000000))) (.var .y)))).map
        (fun li => Node.evaluateNode ratJsPrims
          (.binary .add (.binary .mul (.num li.a) (.var .x)) li.b)
          (F.fin 0) (F.fin 2000000000)) = some (F.fin 0) ∧
      Node.evaluateNode ratJsPrims
        (.binary .add (.var .x)
          (.binary .mul (.num (F.fin (mkRat 1 2000000000))) (.var .y)))
        (F.fin 0) (F.fin 2000000000) = F.fin 1) := by
  decide

set_option maxRecDepth 100000 in
/-- Witness for C4 at `x*2 + 3`, a non-canonical affine shape handled by
the right-literal multiplication branch of the walker. -/
theorem matchLinear_recovers_affine_witness :
    matchLinearRecursive ratJsPrims .x
        (.binary .add (.binary .mul (.var .x) (.num (F.fin 2)))
          (.num (F.fin 3))) = some ⟨F.fin 2, .num (F.fin 3)⟩ ∧
    (F.fin (2 : ℚ)).absLtTol = false ∧
    Node.toleranceExact ratJsPrims
        (.binary .add (.binary .mul (.var .x) (.num (F.fin 2)))
          (.num (F.fin 3))) = true ∧
    Node.builtOk ratJsPrims .x
        (.binary .add (.binary .mul (.var .x) (.num (F.fin 2)))
          (.num (F.fin 3))) = true ∧
    (∃ li : LinMatch,
      matchLinear ratJsPrims .x
          (.binary .add (.binary .mul (.var .x) (.num (F.fin 2)))
            (.num (F.fin 3))) = some li ∧
      li.a = F.fin 2 ∧
      ∀ x y : F,
        (Node.evaluateNode ratJsPrims (.var .x) x y).isFinite = true →
        (Node.evaluateNode ratJsPrims
            (.binary .add (.binary .mul (.num li.a) (.var .x)) li.b) x y =
          Node.evaluateNode ratJsPrims
            (.binary .add (.binary .mul (.var .x) (.num (F.fin 2)))
              (.num (F.fin 3))) x y ∨
        (Node.evaluateNode ratJsPrims
            (.binary .add (.binary .mul (.var .x) (.num (F.fin 2)))
              (.num (F.fin 3))) x y).isFinite = false)) :=
  ⟨by decide, by decide, by decide, by decide,
    matchLinear_recovers_affine ratJsPrims .x _ ⟨F.fin 2, .num (F.fin 3)⟩
      (by decide) (by decide) (by decide) (by decide)⟩

namespace Node

set_option maxHeartbeats 2000000 in
/-- The constant-literal over affine-denominator quotient rule of
`integrateInternal`, for every denominator the affine walker decomposes
with a coefficient outside the zero band and exact tolerance tests: the
rule fires, and the result evaluates like `(c/a) * ln(abs(R))` wherever
the match variable and `R` evaluate to finite values and the target is
not `NaN`. -/
lemma integrate_const_over_affine (P : Prims) (v : VarName) (c : F)
    (R : Node) (lf : LinForm)
    (hm : matchLinearRecursive P v R = some lf)
    (ha : lf.a.absLtTol = false)
    (hoka : okLit (.num lf.a) = true)
    (htE : toleranceExact P R = true)
    (hbo : builtOk P v R = true)
    (hK : okLit (.num (fdiv c lf.a)) = true) :
    ∃ result : Node,
      integrateInternal P v (.binary .div (.num c) R) = some result ∧
      ∀ x y : F, (evaluateNode P (.var v) x y).isFinite = true →
        (evaluateNode P result x y =
            evaluateNode P
              (.binary .mul (.num (fdiv c lf.a)) (.fn .ln (.fn .abs R))) x y ∨
          evaluateNode P
              (.binary .mul (.num (fdiv c lf.a)) (.fn .ln (.fn .abs R))) x y =
            F.nan ∨
          (evaluateNode P R x y).isFinite = false) := by
  have hdR : dependsOn R v = true := by
    cases hd : dependsOn R v with
    | true => rfl
    | false =>
      exfalso
      rw [matchLinearRecursive_indep P v R hd] at hm
      injection hm with hm
      have ha0 : lf.a = F.fin 0 := by rw [← hm]
      rw [ha0] at ha
      exact absurd ha (by decide)
  have hne : lf.a ≠ F.fin 0 := F.absLtTol_false_ne ha
  have hml := matchLinear_of_mlr hm ha
  have hdepDiv : dependsOn (Node.binary .div (.num c) R) v = true := by
    simp [dependsOn, hdR]
  rw [integrateInternal, hdepDiv]
  rw [if_neg (by simp)]
  rw [hdR]
  rw [if_neg (by simp)]
  rw [if_pos (by simp [dependsOn] :
    (decide ((Node.num c).dependsOn v = false) && true) = true)]
  rw [show extractNumericConstant (Node.num c) = some c from rfl]
  rw [hml]
  dsimp only
  rw [if_pos hne]
  have hidem : simplifyNode P
      (makeAdd P (makeMul P (.num lf.a) (.var v)) lf.b) =
      makeAdd P (makeMul P (.num lf.a) (.var v)) lf.b :=
    isSimplified_fix P (simplify_isSimplified P _)
  rw [hidem]
  refine ⟨_, rfl, ?_⟩
  intro x y hxv
  cases hRf : (evaluateNode P R x y).isFinite with
  | false => right; right; rfl
  | true =>
    obtain ⟨hinv1, hinv2⟩ := mlr_invariant P v R lf hm htE hbo
    rcases hinv2 x y hxv with heq | hnf
    · obtain ⟨haf, hbf⟩ := affine_finite hxv (by rw [heq]; exact hRf)
      obtain ⟨ja, hja⟩ := F.isFinite_exists haf
      obtain ⟨jx, hjx⟩ := F.isFinite_exists hxv
      have hokb := selfOk_okLit hm (builtOk_self hbo)
      have htmu : toleranceExact P (.binary .mul (.num lf.a) (.var v)) = true := by
        show (((toleranceExact P (.num lf.a) && toleranceExact P (.var v)) &&
          okLit (simplifyNode P (.num lf.a))) &&
          okLit (simplifyNode P (.var v))) = true
        simp only [Bool.and_eq_true]
        exact ⟨⟨⟨rfl, rfl⟩, hoka⟩, rfl⟩
      have hidem_u : simplifyNode P (makeMul P (.num lf.a) (.var v)) =
          makeMul P (.num lf.a) (.var v) :=
        isSimplified_fix P (simplify_isSimplified P _)
      have hoku : okLit (simplifyNode P (.binary .mul (.num lf.a) (.var v))) =
          true := by
        show okLit (simplifyBinary P .mul (.num lf.a) (.var v)) = true
        cases hone : isOneNode (.num lf.a) with
        | true =>
          have hred : simplifyBinary P .mul (.num lf.a) (.var v) = .var v := by
            simp [simplifyBinary, isZeroNode, isOneNode, ha,
              show (fsub lf.a (F.fin 1)).absLtTol = true from hone]
          rw [hred]
          rfl
        | false =>
          have hred : simplifyBinary P .mul (.num lf.a) (.var v) =
              .binary .mul (.num lf.a) (.var v) := by
            simp [simplifyBinary, isZeroNode, isOneNode, ha,
              show (fsub lf.a (F.fin 1)).absLtTol = false from hone]
          rw [hred]
          rfl
      have hevu : evaluateNode P (makeMul P (.num lf.a) (.var v)) x y =
          fmul lf.a (evaluateNode P (.var v) x y) := by
        rcases eval_make_or_nan P x y .mul (.num lf.a) (.var v) rfl rfl
          hoka rfl with h | h
        · exact h
        · exfalso
          rw [show evalBinary P .mul (evaluateNode P (.num lf.a) x y)
              (evaluateNode P (.var v) x y) =
              fmul lf.a (evaluateNode P (.var v) x y) from rfl,
            hja, hjx] at h
          exact F.noConfusion h
      have htu : toleranceExact P (makeMul P (.num lf.a) (.var v)) = true :=
        toleranceExact_simplify P _ htmu
      have hoku' : okLit (simplifyNode P (makeMul P (.num lf.a) (.var v))) =
          true := by
        rw [hidem_u]
        exact hoku
      have htadd : toleranceExact P
          (.binary .add (makeMul P (.num lf.a) (.var v)) lf.b) = true := by
        show (((toleranceExact P (makeMul P (.num lf.a) (.var v)) &&
          toleranceExact P lf.b) &&
          okLit (simplifyNode P (makeMul P (.num lf.a) (.var v)))) &&
          okLit (simplifyNode P lf.b)) = true
        simp only [Bool.and_eq_true]
        exact ⟨⟨⟨htu, hinv1⟩, hoku'⟩, hokb⟩
      have hevnode : evaluateNode P
          (makeAdd P (makeMul P (.num lf.a) (.var v)) lf.b) x y =
          evaluateNode P R x y := by
        show evaluateNode P (simplifyNode P
          (.binary .add (makeMul P (.num lf.a) (.var v)) lf.b)) x y = _
        rcases eval_make_or_nan P x y .add (makeMul P (.num lf.a) (.var v))
          lf.b htu hinv1 hoku' hokb with h | h
        · rw [h]
          show fadd (evaluateNode P (makeMul P (.num lf.a) (.var v)) x y)
            (evaluateNode P lf.b x y) = _
          rw [hevu]
          exact heq
        · exfalso
          rw [show evalBinary P .add
              (evaluateNode P (makeMul P (.num lf.a) (.var v)) x y)
              (evaluateNode P lf.b x y) =
              fadd (evaluateNode P (makeMul P (.num lf.a) (.var v)) x y)
                (evaluateNode P lf.b x y) from rfl, hevu, heq] at h
          rw [h] at hRf
          exact absurd hRf (by decide)
      have htnode : toleranceExact P
          (makeAdd P (makeMul P (.num lf.a) (.var v)) lf.b) = true :=
        toleranceExact_simplify P _ htadd
      rcases eval_make_or_nan P x y .mul (.num (fdiv c lf.a))
        (.fn .ln (.fn .abs (makeAdd P (makeMul P (.num lf.a) (.var v)) lf.b)))
        rfl htnode hK rfl with h | h
      · left
        rw [show makeMul P (.num (fdiv c lf.a))
            (.fn .ln (.fn .abs
              (makeAdd P (makeMul P (.num lf.a) (.var v)) lf.b))) =
            simplifyNode P (.binary .mul (.num (fdiv c lf.a))
              (.fn .ln (.fn .abs
                (makeAdd P (makeMul P (.num lf.a) (.var v)) lf.b))))
            from rfl, h]
        show fmul (fdiv c lf.a)
            (P.fnsem .ln (P.fnsem .abs (evaluateNode P
              (makeAdd P (makeMul P (.num lf.a) (.var v)) lf.b) x y))) = _
        rw [hevnode]
        rfl
      · right; left
        show fmul (fdiv c lf.a)
          (P.fnsem .ln (P.fnsem .abs (evaluateNode P R x y))) = F.nan
        rw [← hevnode]
        exact h
    · rw [hnf] at hRf
      exact Bool.noConfusion hRf

end Node

set_option maxHeartbeats 1000000 in
/-- C3: the quotient rules of `integrateInternal` on `L / R`.
(i) If `R` is free of `v` and `L` mentions `v`, the rule integrates `L`
and divides by `R`.  (ii) If the numerator is a numeric literal and the
affine walker decomposes the denominator with a coefficient outside the
zero band and exact tolerance tests, the result evaluates like
`(c/a) * ln(abs(R))` wherever the variable and `R` are finite and the
target is not `NaN`.  (iii) If both sides mention `v` the quotient fails.
(iv) If neither side mentions `v` the quotient is handled by the constant
rule instead of failing. -/
theorem integrate_quotient_rules (P : Prims) (v : VarName) :
    (∀ L R : Node, Node.dependsOn R v = false → Node.dependsOn L v = true →
      integrateInternal P v (.binary .div L R) =
        Option.map (fun i => makeDiv P i R) (integrateInternal P v L)) ∧
    (∀ (c : F) (R : Node) (lf : LinForm),
      matchLinearRecursive P v R = some lf →
      lf.a.absLtTol = false →
      Node.okLit (.num lf.a) = true →
      Node.toleranceExact P R = true →
      Node.builtOk P v R = true →
      Node.okLit (.num (fdiv c lf.a)) = true →
      ∃ result : Node,
        integrateInternal P v (.binary .div (.num c) R) = some result ∧
        ∀ x y : F, (Node.evaluateNode P (.var v) x y).isFinite = true →
          (Node.evaluateNode P result x y =
              Node.evaluateNode P
                (.binary .mul (.num (fdiv c lf.a))
                  (.fn .ln (.fn .abs R))) x y ∨
            Node.evaluateNode P
                (.binary .mul (.num (fdiv c lf.a))
                  (.fn .ln (.fn .abs R))) x y = F.nan ∨
            (Node.evaluateNode P R x y).isFinite = false)) ∧
    (∀ L R : Node, Node.dependsOn L v = true → Node.dependsOn R v = true →
      integrateInternal P v (.binary .div L R) = none) ∧
    (∀ L R : Node, Node.dependsOn L v = false → Node.dependsOn R v = false →
      integrateInternal P v (.binary .div L R) =
        some (makeMul P (.binary .div L R) (.var v))) := by
  refine ⟨?_, fun c R lf hm ha hoka htE hbo hK =>
    Node.integrate_const_over_affine P v c R lf hm ha hoka htE hbo hK, ?_, ?_⟩
  · intro L R hR hL
    rw [integrateInternal]
    rw [show Node.dependsOn (.binary .div L R) v = true from by
      simp [Node.dependsOn, hL]]
    rw [if_neg (by simp)]
    rw [if_pos (by simp [hR, hL] :
      (decide (Node.dependsOn R v = false) && Node.dependsOn L v) = true)]
    cases h : integrateInternal P v L with
    | none => rfl
    | some i => rfl
  · intro L R hL hR
    rw [integrateInternal]
    rw [show Node.dependsOn (.binary .div L R) v = true from by
      simp [Node.dependsOn, hL]]
    rw [if_neg (by simp)]
    rw [if_neg (by simp [hR])]
    rw [if_neg (by simp [hL])]
  · intro L R hL hR
    rw [integrateInternal]
    rw [show Node.dependsOn (.binary .div L R) v = false from by
      simp [Node.dependsOn, hL, hR]]
    rw [if_pos rfl]

set_option maxRecDepth 100000 in
/-- C3 counterexample: (1) for `exp(1) / (x + 1)` the numerator is
constant in `x` and the denominator is affine with coefficient `1 ≠ 0`,
yet `integrateInternal` fails, because the numerator is rejected by
`extractNumericConstant` (it is not a bare numeric literal); (2) the
quotient `1 / 2`, which matches none of the two quotient rules, does not
fail: it integrates by the constant rule to `(1/2) * x`. -/
theorem integrate_nonliteral_constant_counterexample :
    (integrateInternal ratJsPrims .x
        (.binary .div (.fn .exp (.num (F.fin 1)))
          (.binary .add (.var .x) (.num (F.fin 1)))) = none ∧
      Node.dependsOn (.fn .exp (.num (F.fin 1))) .x = false ∧
      (matchLinear ratJsPrims .x
          (.binary .add (.var .x) (.num (F.fin 1)))).map LinMatch.a =
        some (F.fin 1)) ∧
    integrateInternal ratJsPrims .x
        (.binary .div (.num (F.fin 1)) (.num (F.fin 2))) =
      some (makeMul ratJsPrims
        (.binary .div (.num (F.fin 1)) (.num (F.fin 2))) (.var .x)) := by
  decide

set_option maxRecDepth 100000 in
/-- Witness for C3: the four quotient conclusions at concrete inputs
(`x / 2`, `1 / (x + 1)` — the affine case with coefficient exactly `1` —
`x / x`, and `1 / 2`). -/
theorem integrate_quotient_rules_witness :
    (integrateInternal ratJsPrims .x (.binary .div (.var .x) (.num (F.fin 2))) =
      Option.map (fun i => makeDiv ratJsPrims i (.num (F.fin 2)))
        (integrateInternal ratJsPrims .x (.var .x))) ∧
    (∃ result : Node,
      integrateInternal ratJsPrims .x
          (.binary .div (.num (F.fin 1))
            (.binary .add (.var .x) (.num (F.fin 1)))) = some result ∧
      ∀ x y : F,
        (Node.evaluateNode ratJsPrims (.var .x) x y).isFinite = true →
        (Node.evaluateNode ratJsPrims result x y =
            Node.evaluateNode ratJsPrims
              (.binary .mul (.num (fdiv (F.fin 1) (F.fin 1)))
                (.fn .ln (.fn .abs
                  (.binary .add (.var .x) (.num (F.fin 1)))))) x y ∨
          Node.evaluateNode ratJsPrims
              (.binary .mul (.num (fdiv (F.fin 1) (F.fin 1)))
                (.fn .ln (.fn .abs
                  (.binary .add (.var .x) (.num (F.fin 1)))))) x y = F.nan ∨
          (Node.evaluateNode ratJsPrims
              (.binary .add (.var .x) (.num (F.fin 1))) x y).isFinite =
            false)) ∧
    (integrateInternal ratJsPrims .x (.binary .div (.var .x) (.var .x)) =
      none) ∧
    (integrateInternal ratJsPrims .x
        (.binary .div (.num (F.fin 1)) (.num (F.fin 2))) =
      some (makeMul ratJsPrims (.binary .div (.num (F.fin 1)) (.num (F.fin 2)))
        (.var .x))) :=
  ⟨(integrate_quotient_rules ratJsPrims .x).1 (.var .x) (.num (F.fin 2)) rfl
      (by decide),
    (integrate_quotient_rules ratJsPrims .x).2.1 (F.fin 1)
      (.binary .add (.var .x) (.num (F.fin 1))) ⟨F.fin 1, .num (F.fin 1)⟩
      (by decide) (by decide) (by decide) (by decide) (by decide) (by decide),
    (integrate_quotient_rules ratJsPrims .x).2.2.1 (.var .x) (.var .x)
      (by decide) (by decide),
    (integrate_quotient_rules ratJsPrims .x).2.2.2 (.num (F.fin 1))
      (.num (F.fin 2)) rfl rfl⟩
